import Mathlib

/-!
# Verification of the AzureDevopsWITDS process-comparison engine

Shallow embedding of the comparison/diff engine in
`src/backend/routes/processes.js` (functions `compareWorkItemTypes`,
`compareFields`, `compareStates`, `compareBehaviors`,
`compareWorkItemTypeBehaviors`, `normalizeProcessData`, `runComparison`),
together with theorems settling the spec claims about it.

JavaScript values are modelled by a two-level value universe (`JAtom`,
`JVal`): primitives, arrays of primitives and objects with primitive
properties.  Entity records (fields, states, behavior bindings, behaviors)
are property bags `JObj := List (String × JVal)`, since the source
iterates `Object.keys` over them.  JavaScript objects used as
string-keyed dictionaries are association lists (`JMap`) with the
insertion-order semantics of JS objects for non-integer-like keys.
-/

/-- Primitive JavaScript values.  Numbers are modelled by `Int`
(the inputs relevant to the claims are integral). -/
inductive JAtom where
  | undefined
  | null
  | bool (b : Bool)
  | num (n : Int)
  | str (s : String)
deriving DecidableEq, Repr

/-- A JavaScript value: a primitive, an array of primitives, or an object
with primitive-valued properties. -/
inductive JVal where
  | atom (a : JAtom)
  | arr (elems : List JAtom)
  | obj (props : List (String × JAtom))
deriving DecidableEq, Repr

/-- An entity record (a raw field / state / behavior / binding object):
a property bag in insertion order, as delivered by the Azure DevOps API. -/
abbrev JObj := List (String × JVal)

/-- A JS object used as a string-keyed dictionary, in insertion order. -/
abbrev JMap (α : Type) := List (String × α)

/-- Lookup in a JS object dictionary (`m[k]`, `undefined` when absent,
modelled as `none`). -/
def aget {α : Type} : JMap α → String → Option α
  | [], _ => none
  | (k1, v) :: m, k => if k1 = k then some v else aget m k

/-- Assignment `m[k] = v` on a JS object dictionary: updates the existing
entry in place (keeping its position) or appends a new entry at the end,
matching JS insertion-order key semantics. -/
def aset {α : Type} : JMap α → String → α → JMap α
  | [], k, v => [(k, v)]
  | (k1, v1) :: m, k, v => if k1 = k then (k, v) :: m else (k1, v1) :: aset m k v

/-- The key list `Object.keys m` (insertion order). -/
def akeys {α : Type} (m : JMap α) : List String := m.map (fun p => p.1)

/-- Model of `Set.prototype.add`: append if not already present (JS `Set` iterates
in insertion order). -/
def pushUnique (xs : List String) (k : String) : List String :=
  if k ∈ xs then xs else xs ++ [k]

/-- JS truthiness of a primitive (`undefined`, `null`, `false`, `0` and
the empty string are falsy). -/
def JAtom.truthy : JAtom → Bool
  | .undefined => false
  | .null => false
  | .bool b => b
  | .num n => n != 0
  | .str s => s != ""

/-- JS truthiness of a value (arrays and objects are always truthy). -/
def JVal.truthy : JVal → Bool
  | .atom a => a.truthy
  | .arr _ => true
  | .obj _ => true

/-- JS `a || b`. -/
def jor (a b : JVal) : JVal := if a.truthy then a else b

/-- JS `a && b`. -/
def jand (a b : JVal) : JVal := if a.truthy then b else a

/-- Property access on an entity record: `o.k`, `undefined` when absent. -/
def jget (o : JObj) (k : String) : JVal :=
  match aget o k with
  | some v => v
  | none => .atom .undefined

/-- Property access on a nested value (`v.k`): only objects carry
properties; on any other value the properties used by the source are
`undefined`. -/
def JVal.get (v : JVal) (k : String) : JVal :=
  match v with
  | .obj props =>
    match aget props k with
    | some a => .atom a
    | none => .atom .undefined
  | _ => .atom .undefined

/-- JS `String(a)` for primitives, as used when a value is coerced to an
object key. -/
def JAtom.toStr : JAtom → String
  | .undefined => "undefined"
  | .null => "null"
  | .bool b => if b then "true" else "false"
  | .num n => toString n
  | .str s => s

/-- Element rendering inside `Array.prototype.toString` (where `null` and
`undefined` render as the empty string). -/
def JAtom.toStrInArr : JAtom → String
  | .undefined => ""
  | .null => ""
  | a => a.toStr

/-- JS string coercion of a value used as an object key (`m[v]`). -/
def jsToString : JVal → String
  | .atom a => a.toStr
  | .arr elems => String.intercalate "," (elems.map JAtom.toStrInArr)
  | .obj _ => "[object Object]"

/-- JSON string escaping of one character. -/
def jsonEscapeChar (c : Char) : String :=
  if c = '"' then "\\\""
  else if c = '\\' then "\\\\"
  else if c = '\n' then "\\n"
  else if c = '\t' then "\\t"
  else if c = '\r' then "\\r"
  else String.singleton c

/-- JSON string escaping. -/
def jsonEscape (s : String) : String :=
  String.join (s.toList.map jsonEscapeChar)

/-- Model of `JSON.stringify` of a primitive; `none` models the `undefined` result
for `JSON.stringify(undefined)`. -/
def JAtom.stringify : JAtom → Option String
  | .undefined => none
  | .null => some "null"
  | .bool b => some (if b then "true" else "false")
  | .num n => some (toString n)
  | .str s => some ("\"" ++ jsonEscape s ++ "\"")

/-- Model of `JSON.stringify` of a value (`none` models an `undefined` result).
Inside arrays `undefined` serializes as `null`; inside objects properties
with `undefined` values are omitted. -/
def jsonStringify : JVal → Option String
  | .atom a => a.stringify
  | .arr elems =>
    some ("[" ++ String.intercalate ","
      (elems.map (fun a => (a.stringify).getD "null")) ++ "]")
  | .obj props =>
    some ("\x7b" ++ String.intercalate ","
      (props.filterMap (fun p =>
        (p.2.stringify).map (fun s => "\"" ++ jsonEscape p.1 ++ "\":" ++ s)))
      ++ "\x7d")

/-- The source's `x !== undefined ? x : null` treatment of property
values before serialization. -/
def nullify (v : JVal) : JVal := if v = .atom .undefined then .atom .null else v

/-! ## Locale-aware string comparison

Models `String.prototype.localeCompare` with no arguments under the
default ICU root collation, restricted to the ASCII strings the program
compares: a primary pass compares the strings case-insensitively; when
the primary keys are equal, a tertiary pass compares case bits, lowercase
sorting before uppercase (in Node, `"a".localeCompare("A") === -1`).
This comparison is *not* case-insensitive: case variants compare unequal. -/

/-- Three-way comparison of naturals. -/
def ncmp (a b : Nat) : Ordering :=
  if a < b then .lt else if b < a then .gt else .eq

/-- Lexicographic three-way comparison of lists of naturals. -/
def lexCmp : List Nat → List Nat → Ordering
  | [], [] => .eq
  | [], _ :: _ => .lt
  | _ :: _, [] => .gt
  | x :: xs, y :: ys => (ncmp x y).then (lexCmp xs ys)

/-- Primary collation key: the code points of the lowercased string. -/
def primKey (s : String) : List Nat := s.toList.map (fun c => c.toLower.toNat)

/-- Tertiary collation key: the case bits (lowercase/uncased before
uppercase). -/
def caseKey (s : String) : List Nat := s.toList.map (fun c => if c.isUpper then 1 else 0)

/-- The comparison `a.localeCompare(b)` as an `Ordering` (default ICU root collation,
ASCII fragment). -/
def localeOrd (a b : String) : Ordering :=
  (lexCmp (primKey a) (primKey b)).then (lexCmp (caseKey a) (caseKey b))

/-- The relation `a.localeCompare(b) <= 0`: the order under which
`Object.keys(byName).sort((a, b) => a.localeCompare(b))` sorts. -/
def locLe (a b : String) : Prop := localeOrd a b ≠ .gt

instance : DecidableRel locLe := fun a b => by
  unfold locLe; infer_instance

theorem orderingThen_eq (p : Ordering) : Ordering.eq.then p = p := rfl

theorem ncmp_self (a : Nat) : ncmp a a = .eq := by
  simp [ncmp]

theorem ncmp_lt_iff (a b : Nat) : ncmp a b = .lt ↔ a < b := by
  unfold ncmp
  split_ifs with h1 h2 <;> simp_all <;> omega

theorem ncmp_eq_iff (a b : Nat) : ncmp a b = .eq ↔ a = b := by
  unfold ncmp
  split_ifs with h1 h2 <;> simp_all <;> omega

theorem ncmp_swap (a b : Nat) : ncmp b a = (ncmp a b).swap := by
  unfold ncmp
  rcases Nat.lt_trichotomy a b with h | h | h
  · simp [h, Nat.lt_asymm h, Ordering.swap]
  · subst h; simp [Nat.lt_irrefl, Ordering.swap]
  · simp [h, Nat.lt_asymm h, Ordering.swap]

theorem lexCmp_swap : ∀ xs ys, lexCmp ys xs = (lexCmp xs ys).swap
  | [], [] => rfl
  | [], _ :: _ => rfl
  | _ :: _, [] => rfl
  | x :: xs, y :: ys => by
    rw [lexCmp, lexCmp, ncmp_swap x y, lexCmp_swap xs ys]
    cases ncmp x y <;> simp [Ordering.swap, Ordering.then]

theorem lexCmp_eq_iff : ∀ xs ys, lexCmp xs ys = .eq ↔ xs = ys
  | [], [] => by simp [lexCmp]
  | [], _ :: _ => by simp [lexCmp]
  | _ :: _, [] => by simp [lexCmp]
  | x :: xs, y :: ys => by
    rw [lexCmp]
    cases h : ncmp x y with
    | eq =>
      have he := (ncmp_eq_iff x y).mp h
      subst he
      simp [Ordering.then, lexCmp_eq_iff xs ys]
    | lt =>
      constructor
      · intro hc; exact absurd hc (by simp [Ordering.then])
      · intro hc
        injection hc with h1 h2
        subst h1
        rw [ncmp_self] at h
        simp at h
    | gt =>
      constructor
      · intro hc; exact absurd hc (by simp [Ordering.then])
      · intro hc
        injection hc with h1 h2
        subst h1
        rw [ncmp_self] at h
        simp at h

theorem lexCmp_lt_trans : ∀ {xs ys zs : List Nat}, lexCmp xs ys = .lt →
    lexCmp ys zs = .lt → lexCmp xs zs = .lt
  | [], [], _ :: _, _, _ => rfl
  | [], _ :: _, _ :: _, _, _ => rfl
  | [], _ :: _, [], _, h2 => by simp [lexCmp] at h2
  | _ :: _, _ :: _, [], _, h2 => by simp [lexCmp] at h2
  | x :: xs, y :: ys, z :: zs, h1, h2 => by
    rw [lexCmp] at h1 h2 ⊢
    cases hxy : ncmp x y with
    | gt => rw [hxy] at h1; simp [Ordering.then] at h1
    | eq =>
      have he := (ncmp_eq_iff x y).mp hxy
      subst he
      rw [hxy, orderingThen_eq] at h1
      cases hxz : ncmp x z with
      | gt => rw [hxz] at h2; simp [Ordering.then] at h2
      | eq =>
        rw [hxz, orderingThen_eq] at h2
        rw [orderingThen_eq]
        exact lexCmp_lt_trans h1 h2
      | lt => simp [hxz, Ordering.then]
    | lt =>
      cases hyz : ncmp y z with
      | gt => rw [hyz] at h2; simp [Ordering.then] at h2
      | eq =>
        have he := (ncmp_eq_iff y z).mp hyz
        subst he
        simp [hxy, Ordering.then]
      | lt =>
        have h3 : ncmp x z = .lt := by
          rw [ncmp_lt_iff] at hxy hyz ⊢
          omega
        simp [h3, Ordering.then]

theorem localeOrd_swap (a b : String) : localeOrd b a = (localeOrd a b).swap := by
  unfold localeOrd
  rw [lexCmp_swap (primKey a), lexCmp_swap (caseKey a)]
  cases lexCmp (primKey a) (primKey b) <;> simp [Ordering.swap, Ordering.then]

theorem localeOrd_eq_keys {a b : String} (h : localeOrd a b = .eq) :
    primKey a = primKey b ∧ caseKey a = caseKey b := by
  unfold localeOrd at h
  cases hp : lexCmp (primKey a) (primKey b) with
  | eq =>
    rw [hp, orderingThen_eq] at h
    exact ⟨(lexCmp_eq_iff _ _).mp hp, (lexCmp_eq_iff _ _).mp h⟩
  | lt => rw [hp] at h; exact absurd h (by simp [Ordering.then])
  | gt => rw [hp] at h; exact absurd h (by simp [Ordering.then])

theorem localeOrd_lt_trans {a b c : String} (h1 : localeOrd a b = .lt)
    (h2 : localeOrd b c = .lt) : localeOrd a c = .lt := by
  unfold localeOrd at *
  cases hp1 : lexCmp (primKey a) (primKey b) with
  | gt => rw [hp1] at h1; simp [Ordering.then] at h1
  | eq =>
    rw [hp1, orderingThen_eq] at h1
    rw [(lexCmp_eq_iff _ _).mp hp1]
    cases hp2 : lexCmp (primKey b) (primKey c) with
    | gt => rw [hp2] at h2; simp [Ordering.then] at h2
    | eq =>
      rw [hp2, orderingThen_eq] at h2
      rw [orderingThen_eq]
      exact lexCmp_lt_trans h1 h2
    | lt => simp [hp2, Ordering.then]
  | lt =>
    cases hp2 : lexCmp (primKey b) (primKey c) with
    | gt => rw [hp2] at h2; simp [Ordering.then] at h2
    | eq =>
      rw [← (lexCmp_eq_iff _ _).mp hp2]
      simp [hp1, Ordering.then]
    | lt => simp [lexCmp_lt_trans hp1 hp2, Ordering.then]

theorem locLe_total (a b : String) : locLe a b ∨ locLe b a := by
  unfold locLe
  rw [localeOrd_swap a b]
  cases localeOrd a b <;> simp [Ordering.swap]

theorem locLe_trans {a b c : String} (h1 : locLe a b) (h2 : locLe b c) : locLe a c := by
  unfold locLe at *
  cases hab : localeOrd a b with
  | gt => exact absurd hab h1
  | eq =>
    have hk := localeOrd_eq_keys hab
    unfold localeOrd at *
    rw [hk.1, hk.2]
    exact h2
  | lt =>
    cases hbc : localeOrd b c with
    | gt => exact absurd hbc h2
    | eq =>
      have hk := localeOrd_eq_keys hbc
      unfold localeOrd at *
      rw [← hk.1, ← hk.2]
      rw [hab]
      simp
    | lt =>
      rw [localeOrd_lt_trans hab hbc]
      simp

instance : IsTotal String locLe := ⟨locLe_total⟩

instance : IsTrans String locLe := ⟨fun _ _ _ => locLe_trans⟩

/-! ## Data model

The per-process snapshot shape consumed by the comparison functions
(see the pull endpoint in `src/backend/routes/processes.js` and
`normalizeProcessData`). -/

/-- A control inside a layout group (`group.controls[i]`). -/
structure LControl where
  id : JVal := .atom .undefined
  visible : JVal := .atom .undefined
  controlType : JVal := .atom .undefined
  label : JVal := .atom .undefined
deriving DecidableEq, Repr

/-- A group inside a layout section. -/
structure LGroup where
  id : JVal := .atom .undefined
  isContribution : JVal := .atom .undefined
  label : JVal := .atom .undefined
  controls : List LControl := []
deriving DecidableEq, Repr

/-- A section inside a layout page. -/
structure LSection where
  groups : List LGroup := []
deriving DecidableEq, Repr

/-- A page of a work item type's form layout. -/
structure LPage where
  isContribution : JVal := .atom .undefined
  pageType : JVal := .atom .undefined
  sections : List LSection := []
deriving DecidableEq, Repr

/-- A work item type's form layout tree. -/
structure Layout where
  pages : List LPage := []
deriving DecidableEq, Repr

/-- A work item type descriptor.  Scalar attributes are raw JS values
(`.atom .undefined` models an absent property); the nested collections
default to empty, as the pull endpoint materialises them. -/
structure Wit where
  name : JVal := .atom .undefined
  referenceName : JVal := .atom .undefined
  id : JVal := .atom .undefined
  isDisabled : JVal := .atom .undefined
  color : JVal := .atom .undefined
  description : JVal := .atom .undefined
  icon : JVal := .atom .undefined
  isDefault : JVal := .atom .undefined
  fields : List JObj := []
  states : List JObj := []
  behaviors : List JObj := []
  layout : Option Layout := none
deriving DecidableEq, Repr

/-- One process's pulled data (`proc.data`).  The four top-level derived
maps are `Option` so that `normalizeProcessData`'s `if (!data.fields)`
initialisation is modelled faithfully. -/
structure ProcData where
  workItemTypes : List Wit := []
  fields : Option (JMap (List JObj)) := none
  states : Option (JMap (List JObj)) := none
  workItemTypeBehaviors : Option (JMap (List JObj)) := none
  layouts : Option (JMap Layout) := none
  behaviors : List JObj := []
  process : JVal := .atom .undefined
  orgUrl : JVal := .atom .undefined
deriving DecidableEq, Repr

/-- One element of the `processesData` argument. -/
structure ProcEntry where
  connectionId : String := ""
  processId : String
  data : ProcData
deriving DecidableEq, Repr

/-- The value `w.name || w.referenceName || w.id`, the display-name value of a work
item type. -/
def witKeyVal (w : Wit) : JVal := jor w.name (jor w.referenceName w.id)

/-- The work item type display name coerced to an object key. -/
def witKey (w : Wit) : String := jsToString (witKeyVal w)

/-- The process id list `processesData.map((p) => p.processId)`. -/
def procIdsOf (ps : List ProcEntry) : List String := ps.map (fun p => p.processId)

/-! ## Snapshot normalizer (`normalizeProcessData`) -/

/-- One step of a derived-index pass of `normalizeProcessData`: when
`get` yields a value for a type (a non-empty nested collection, or a
present layout) and no entry exists yet under the type's display name,
add it — first writer wins. -/
def deriveStep {α : Type} (get : Wit → Option α) (m : JMap α) (w : Wit) : JMap α :=
  match get w with
  | some v => if (aget m (witKey w)).isNone then aset m (witKey w) v else m
  | none => m

/-- One derived-index pass of `normalizeProcessData`: walk the work item
types in order applying `deriveStep`. -/
def deriveIdx {α : Type} (get : Wit → Option α) : JMap α → List Wit → JMap α
  | m, [] => m
  | m, w :: ws => deriveIdx get (deriveStep get m w) ws

/-- The guard `wit.fields && wit.fields.length > 0` as an optional value. -/
def witFieldsOpt (w : Wit) : Option (List JObj) :=
  if w.fields.isEmpty then none else some w.fields

/-- The guard `wit.states && wit.states.length > 0` as an optional value. -/
def witStatesOpt (w : Wit) : Option (List JObj) :=
  if w.states.isEmpty then none else some w.states

/-- The guard `wit.behaviors && wit.behaviors.length > 0` as an optional value. -/
def witBehaviorsOpt (w : Wit) : Option (List JObj) :=
  if w.behaviors.isEmpty then none else some w.behaviors

/-- Model of `normalizeProcessData` on a single snapshot: ensure the four top-level
maps exist, then derive missing entries from the nested work item type
records, keyed by display name, never overwriting an existing entry. -/
def normalizeData (d : ProcData) : ProcData :=
  { d with
    fields := some (deriveIdx witFieldsOpt (d.fields.getD []) d.workItemTypes)
    states := some (deriveIdx witStatesOpt (d.states.getD []) d.workItemTypes)
    workItemTypeBehaviors :=
      some (deriveIdx witBehaviorsOpt (d.workItemTypeBehaviors.getD []) d.workItemTypes)
    layouts := some (deriveIdx Wit.layout (d.layouts.getD []) d.workItemTypes) }

/-- Model of `normalizeProcessData` over the whole `processesData` list. -/
def normalizeAll (ps : List ProcEntry) : List ProcEntry :=
  ps.map (fun p => { p with data := normalizeData p.data })

/-! ## Work-item-type aligner (`compareWorkItemTypes`) -/

/-- The per-process attribute snapshot stored in `byName[name][processId]`
(the constant `present: true` member is implicit in map membership). -/
structure WitAttrs where
  isDisabled : JVal
  referenceName : JVal
  color : JVal
  description : JVal
  icon : JVal
  isDefault : JVal
deriving DecidableEq, Repr

/-- The `byName[name][proc.processId]` payload for one work item
type. -/
def witAttrsOf (w : Wit) : WitAttrs :=
  { isDisabled := jor w.isDisabled (.atom (.bool false))
    referenceName := jor w.referenceName w.id
    color := jor w.color (.atom (.str ""))
    description := jor w.description (.atom (.str ""))
    icon := jor w.icon (.atom (.str ""))
    isDefault := jor w.isDefault (.atom (.bool false)) }

/-- The `byName` index of `compareWorkItemTypes`: display name → process
id → attributes. -/
def witByName (ps : List ProcEntry) : JMap (JMap WitAttrs) :=
  ps.foldl (fun bn proc =>
    proc.data.workItemTypes.foldl (fun bn w =>
      let name := witKey w
      aset bn name (aset ((aget bn name).getD []) proc.processId (witAttrsOf w))) bn) []

/-- The `byProcess` index: process id → the list of work item type
reference names (`w.referenceName || w.id`). -/
def witByProcess (ps : List ProcEntry) : JMap (List JVal) :=
  ps.foldl (fun bp proc =>
    aset bp proc.processId
      (proc.data.workItemTypes.map (fun w => jor w.referenceName w.id))) []

/-- The `presentIn` list for a display name: the supplied process ids whose
`byName` entry exists (a JS object, hence truthy). -/
def witPresentIn (ps : List ProcEntry) (name : String) : List String :=
  (procIdsOf ps).filter (fun pid => ((aget ((aget (witByName ps) name).getD []) pid).isSome : Bool))

/-- The `missingFrom` list for a display name. -/
def witMissingFrom (ps : List ProcEntry) (name : String) : List String :=
  (procIdsOf ps).filter (fun pid => !((aget ((aget (witByName ps) name).getD []) pid).isSome : Bool))

/-- A work-item-type difference record.  It carries presence information
only: `compareWorkItemTypes` computes no property differences. -/
structure WitDiff where
  witName : String
  presentIn : List String
  missingFrom : List String
deriving DecidableEq, Repr

/-- Result shape of `compareWorkItemTypes`. -/
structure WitComparison where
  all : List String
  byProcess : JMap (List JVal)
  byName : JMap (JMap WitAttrs)
  differences : List WitDiff
deriving DecidableEq, Repr

/-- The conditional record for one display name: only a presence gap
(`missingFrom` non-empty) produces a record. -/
def witDiffFor (ps : List ProcEntry) (witName : String) : Option WitDiff :=
  let presentIn := witPresentIn ps witName
  let missingFrom := witMissingFrom ps witName
  if missingFrom.isEmpty then none
  else some { witName := witName, presentIn := presentIn, missingFrom := missingFrom }

/-- Model of `compareWorkItemTypes`: group by display name, sort the name list
with `localeCompare`, and emit one presence record per name that is
missing from at least one process. -/
def compareWorkItemTypes (ps : List ProcEntry) : WitComparison :=
  let byName := witByName ps
  let allNames := (akeys byName).insertionSort locLe
  { all := allNames
    byProcess := witByProcess ps
    byName := byName
    differences := allNames.filterMap (witDiffFor ps) }

/-! ## Shared property-diffing primitives (`compareFields` /
`compareStates` / `compareWorkItemTypeBehaviors`) -/

/-- One property difference record `{ property, values }`. -/
structure PropDiff where
  property : String
  values : JMap JVal
deriving DecidableEq, Repr

/-- The values object for one property:
`values[pid] = obj[prop] !== undefined ? obj[prop] : null` over the
present processes. -/
def propValuesFor (presentIn : List String) (procObjs : JMap JObj) (prop : String) : JMap JVal :=
  presentIn.foldl (fun m pid => aset m pid (nullify (jget ((aget procObjs pid).getD []) prop))) []

/-- The check `serialized.every((v) => v === serialized[0])`. -/
def serializedSame (ss : List (Option String)) : Bool :=
  match ss with
  | [] => true
  | s :: rest => (s :: rest).all (fun v => decide (v = s))

/-- Serialize-and-compare for one property; `some` exactly when the
serialized forms are not all identical across the present processes. -/
def propDiffForProp (presentIn : List String) (procObjs : JMap JObj) (prop : String) :
    Option PropDiff :=
  let values := propValuesFor presentIn procObjs prop
  let serialized := presentIn.map (fun pid => jsonStringify ((aget values pid).getD (.atom .undefined)))
  if serializedSame serialized then none else some { property := prop, values := values }

/-- The union of property keys across all present copies, in JS `Set`
insertion order, excluding the ignore-set. -/
def allPropsOf (ignored : List String) (presentIn : List String) (procObjs : JMap JObj) :
    List String :=
  presentIn.foldl (fun acc pid =>
    (akeys ((aget procObjs pid).getD [])).foldl (fun acc key =>
      if key ∈ ignored then acc else pushUnique acc key) acc) []

/-- The raw property-diff pass shared by `compareFields` and
`compareStates`: diff every non-ignored property key appearing on any
present copy. -/
def rawPropDiffs (ignored : List String) (presentIn : List String) (procObjs : JMap JObj) :
    List PropDiff :=
  (allPropsOf ignored presentIn procObjs).filterMap (propDiffForProp presentIn procObjs)

/-- The ignore-set `IGNORED_FIELD_PROPS` of `compareFields`. -/
def IGNORED_FIELD_PROPS : List String := ["url", "customization", "hidden", "isLocked"]

/-- The ignore-set `IGNORED_STATE_PROPS` of `compareStates`. -/
def IGNORED_STATE_PROPS : List String := ["url", "customization", "customizationType", "id"]

/-- The fixed compared-property list `COMPARE_PROPS` of `compareWorkItemTypeBehaviors`. -/
def COMPARE_PROPS : List String := ["isDefault", "isLegacyDefault"]

/-! ## Field comparator (`compareFields`) -/

/-- The layout-control index entry
`{ groupId, groupLabel, visible, controlType, label }`. -/
structure ControlInfo where
  groupId : JVal
  groupLabel : JVal
  visible : Bool
  controlType : JVal
  label : JVal
deriving DecidableEq, Repr

/-- An eligible layout group `{ groupId, label }`. -/
structure GroupInfo where
  groupId : JVal
  label : JVal
deriving DecidableEq, Repr

/-- The page guard: skip contribution pages and the history, links and
attachments page types. -/
def pageSkip (p : LPage) : Bool :=
  p.isContribution.truthy ||
    decide (p.pageType = .atom (.str "history")) ||
    decide (p.pageType = .atom (.str "links")) ||
    decide (p.pageType = .atom (.str "attachments"))

/-- Walk one layout tree, producing the control index (field reference
name → control info) and the list of eligible (non-contribution) groups,
in document order. -/
def layoutWalk (layout : Layout) : JMap ControlInfo × List GroupInfo :=
  layout.pages.foldl (fun acc page =>
    if pageSkip page then acc
    else page.sections.foldl (fun acc s =>
      s.groups.foldl (fun acc group =>
        if !group.id.truthy then acc
        else
          let acc1 :=
            if !group.isContribution.truthy then
              (acc.1, acc.2 ++ [{ groupId := group.id, label := jor group.label group.id }])
            else acc
          (group.controls.foldl (fun idx ctrl =>
            if ctrl.id.truthy then
              aset idx (jsToString ctrl.id)
                { groupId := group.id
                  groupLabel := jor group.label group.id
                  visible := !(decide (ctrl.visible = JVal.atom (.bool false)))
                  controlType := jor ctrl.controlType (.atom .null)
                  label := jor ctrl.label (.atom (.str "")) }
            else idx) acc1.1, acc1.2)) acc) acc) ([], [])

/-- The index `layoutIndex[processId]` for every supplied process (empty when the
process has no layout for this work item type). -/
def layoutIndexFor (ps : List ProcEntry) (witRef : String) : JMap (JMap ControlInfo) :=
  ps.foldl (fun li proc =>
    let pair := match aget ((proc.data.layouts).getD []) witRef with
      | some layout => layoutWalk layout
      | none => (([], []) : JMap ControlInfo × List GroupInfo)
    aset li proc.processId pair.1) []

/-- The groups `layoutGroups[processId]` for every supplied process. -/
def layoutGroupsFor (ps : List ProcEntry) (witRef : String) : JMap (List GroupInfo) :=
  ps.foldl (fun lg proc =>
    let pair := match aget ((proc.data.layouts).getD []) witRef with
      | some layout => layoutWalk layout
      | none => (([], []) : JMap ControlInfo × List GroupInfo)
    aset lg proc.processId pair.2) []

/-- The set of work item type keys that carry data for one derived map,
in JS `Set` insertion order. -/
def allWitRefsOf (get : ProcData → Option (JMap (List JObj))) (ps : List ProcEntry) :
    List String :=
  ps.foldl (fun acc proc => (akeys ((get proc.data).getD [])).foldl pushUnique acc) []

/-- The map `witRefNames`: process id → that process own reference name for the
work item type whose display name equals `witRef`. -/
def witRefNamesFor (ps : List ProcEntry) (witRef : String) : JMap JVal :=
  ps.foldl (fun m proc =>
    match proc.data.workItemTypes.find? (fun w => decide (witKeyVal w = .atom (.str witRef))) with
    | some w => aset m proc.processId (jor w.referenceName w.id)
    | none => m) []

/-- The grouping key of a raw field:
`field.referenceName || field.name`, coerced to an object key (the string
"undefined" when both are absent — there is no `id` fallback). -/
def fkey (field : JObj) : String :=
  jsToString (jor (jget field "referenceName") (jget field "name"))

/-- The field grouping map of `compareFields`:
`fieldMap[field.referenceName || field.name][processId] = field`.
Grouping across processes is by *reference name* (with a display-name
fallback), coerced to an object key. -/
def fieldMapFor (ps : List ProcEntry) (witRef : String) : JMap (JMap JObj) :=
  ps.foldl (fun fm proc =>
    ((aget ((proc.data.fields).getD []) witRef).getD []).foldl (fun fm field =>
      aset fm (fkey field) (aset ((aget fm (fkey field)).getD []) proc.processId field)) fm) []

/-- The per-process merged field/layout info stored in
`byField[displayName][processId]`. -/
structure FieldInfo where
  referenceName : JVal
  name : JVal
  required : JVal
  readOnly : JVal
  type : JVal
  onLayout : Bool
  layoutVisible : Bool
  layoutGroupId : JVal
  layoutGroupLabel : JVal
  layoutControlType : JVal
  layoutLabel : JVal
deriving DecidableEq, Repr

/-- Build one `byField[displayName][processId]` entry. -/
def fieldInfoOf (layoutIndex : JMap (JMap ControlInfo)) (ref : String) (pid : String)
    (field : JObj) : FieldInfo :=
  let fieldRef := jor (jget field "referenceName") (.atom (.str ref))
  let ctrlInfo := aget ((aget layoutIndex pid).getD []) (jsToString fieldRef)
  { referenceName := fieldRef
    name := jor (jget field "name") (.atom (.str ref))
    required := jor (jget field "required") (.atom (.bool false))
    readOnly := jor (jget field "readOnly") (.atom (.bool false))
    type := jor (jget field "type") (.atom (.str ""))
    onLayout := ctrlInfo.isSome
    layoutVisible := (ctrlInfo.map (fun c => c.visible)).getD false
    layoutGroupId := (ctrlInfo.map (fun c => c.groupId)).getD (.atom .null)
    layoutGroupLabel := (ctrlInfo.map (fun c => c.groupLabel)).getD (.atom .null)
    layoutControlType := (ctrlInfo.map (fun c => c.controlType)).getD (.atom .null)
    layoutLabel := (ctrlInfo.map (fun c => c.label)).getD (.atom (.str "")) }

/-- Build `byField` and `allFieldNames` by iterating `fieldMap` in key
order: per reference name, the display name is pushed onto the name list
and `byField[displayName]` is *reassigned* to that reference name's
per-process entries (so a later reference name with the same display name
overwrites the earlier one). -/
def buildByField (fm : JMap (JMap JObj)) (layoutIndex : JMap (JMap ControlInfo)) :
    JMap (JMap FieldInfo) × List JVal :=
  fm.foldl (fun acc entry =>
    let ref := entry.1
    let displayVal := jor (jget ((entry.2.map (fun p => p.2)).headD []) "name") (.atom (.str ref))
    let inner := entry.2.foldl (fun inner pe =>
      aset inner pe.1 (fieldInfoOf layoutIndex ref pe.1 pe.2)) []
    (aset acc.1 (jsToString displayVal) inner, acc.2 ++ [displayVal])) ([], [])

/-- The lookup `layoutIndex[pid]` at `procFields[pid].referenceName || fieldRefName`. -/
def ctrlInfoFor (procFields : JMap JObj) (fieldRefName : String)
    (layoutIndex : JMap (JMap ControlInfo)) (pid : String) : Option ControlInfo :=
  let field := (aget procFields pid).getD []
  let fieldRef := jor (jget field "referenceName") (.atom (.str fieldRefName))
  aget ((aget layoutIndex pid).getD []) (jsToString fieldRef)

/-- The value `onLayoutValues[pid]`, the truthiness of the control info. -/
def fieldOnLayout (procFields : JMap JObj) (fieldRefName : String)
    (layoutIndex : JMap (JMap ControlInfo)) (pid : String) : Bool :=
  (ctrlInfoFor procFields fieldRefName layoutIndex pid).isSome

/-- The value `visibleValues[pid]`: the control visibility, defaulting to false. -/
def fieldLayoutVisible (procFields : JMap JObj) (fieldRefName : String)
    (layoutIndex : JMap (JMap ControlInfo)) (pid : String) : Bool :=
  ((ctrlInfoFor procFields fieldRefName layoutIndex pid).map (fun c => c.visible)).getD false

/-- Serialization `JSON.stringify` of a boolean. -/
def boolStr (b : Bool) : String := if b then "true" else "false"

/-- The layout-placement comparison appended to the raw property diffs:
`onLayout` parity across present processes, and — only when the field is
on the layout everywhere — `layoutVisible` parity (the two per-process
value maps are built in one loop in the source; the two assignments are
independent, so they are modelled as two folds). -/
def layoutPropDiffs (presentIn : List String) (procFields : JMap JObj) (fieldRefName : String)
    (layoutIndex : JMap (JMap ControlInfo)) : List PropDiff :=
  let onLayoutValues := presentIn.foldl (fun m pid =>
    aset m pid (fieldOnLayout procFields fieldRefName layoutIndex pid)) []
  let visibleValues := presentIn.foldl (fun m pid =>
    aset m pid (fieldLayoutVisible procFields fieldRefName layoutIndex pid)) []
  let onLayoutSerialized := presentIn.map (fun pid => (aget onLayoutValues pid).map boolStr)
  let d1 :=
    if serializedSame onLayoutSerialized then []
    else [{ property := "onLayout",
            values := onLayoutValues.map (fun p => (p.1, JVal.atom (.bool p.2))) }]
  let allOnLayout := presentIn.all (fun pid => (aget onLayoutValues pid).getD false)
  let d2 :=
    if allOnLayout then
      let visibleSerialized := presentIn.map (fun pid => (aget visibleValues pid).map boolStr)
      if serializedSame visibleSerialized then []
      else [{ property := "layoutVisible",
              values := visibleValues.map (fun p => (p.1, JVal.atom (.bool p.2))) }]
    else []
  d1 ++ d2

/-- A field difference record. -/
structure FieldDiff where
  fieldRefName : String
  fieldName : JVal
  presentIn : List String
  missingFrom : List String
  propertyDifferences : List PropDiff
deriving DecidableEq, Repr

/-- The conditional record for one grouped reference name: a record is
emitted when there is a presence gap or at least one property/layout
difference. -/
def fieldDiffFor (processIds : List String) (layoutIndex : JMap (JMap ControlInfo))
    (entry : String × JMap JObj) : Option FieldDiff :=
  let fieldRefName := entry.1
  let procFields := entry.2
  let presentIn := processIds.filter (fun pid => ((aget procFields pid).isSome : Bool))
  let missingFrom := processIds.filter (fun pid => (!(aget procFields pid).isSome : Bool))
  let sampleField := (procFields.map (fun p => p.2)).headD []
  let fieldName := jor (jget sampleField "name") (.atom (.str fieldRefName))
  let propertyDifferences :=
    (if 1 < presentIn.length then rawPropDiffs IGNORED_FIELD_PROPS presentIn procFields
     else []) ++
    (if 1 < presentIn.length then layoutPropDiffs presentIn procFields fieldRefName layoutIndex
     else [])
  if missingFrom.isEmpty && propertyDifferences.isEmpty then none
  else some { fieldRefName, fieldName, presentIn, missingFrom, propertyDifferences }

/-- The difference loop of `compareFields`. -/
def fieldDiffsFor (processIds : List String) (fm : JMap (JMap JObj))
    (layoutIndex : JMap (JMap ControlInfo)) : List FieldDiff :=
  fm.filterMap (fieldDiffFor processIds layoutIndex)

/-- Result of `compareFields` for one work item type. -/
structure FieldWitResult where
  all : List JVal
  differences : List FieldDiff
  byField : JMap (JMap FieldInfo)
  witRefNames : JMap JVal
  layoutGroups : JMap (List GroupInfo)
deriving DecidableEq, Repr

/-- Result shape of `compareFields`. -/
structure FieldsComparison where
  byWorkItemType : JMap FieldWitResult
deriving DecidableEq, Repr

/-- The per-work-item-type result of `compareFields`. -/
def fieldWitResultFor (ps : List ProcEntry) (witRef : String) : FieldWitResult :=
  let fm := fieldMapFor ps witRef
  let li := layoutIndexFor ps witRef
  let bf := buildByField fm li
  { all := bf.2
    differences := fieldDiffsFor (procIdsOf ps) fm li
    byField := bf.1
    witRefNames := witRefNamesFor ps witRef
    layoutGroups := layoutGroupsFor ps witRef }

/-- Model of `compareFields`. -/
def compareFields (ps : List ProcEntry) : FieldsComparison :=
  { byWorkItemType := (allWitRefsOf ProcData.fields ps).map (fun witRef =>
      (witRef, fieldWitResultFor ps witRef)) }

/-! ## State comparator (`compareStates`) -/

/-- The per-process state metadata stored in `byState[name][processId]`. -/
structure StateInfo where
  id : JVal
  name : JVal
  color : JVal
  stateCategory : JVal
  order : JVal
  customizationType : JVal
deriving DecidableEq, Repr

/-- Build one `byState[stateName][processId]` entry. -/
def stateInfoOf (stateName : String) (state : JObj) : StateInfo :=
  { id := jor (jget state "id") (.atom (.str ""))
    name := jor (jget state "name") (.atom (.str stateName))
    color := jor (jget state "color") (.atom (.str ""))
    stateCategory := jor (jget state "stateCategory") (.atom (.str ""))
    order :=
      (let o := jget state "order"
       if o = .atom .undefined ∨ o = .atom .null then .atom .null else o)
    customizationType := jor (jget state "customizationType") (.atom (.str "")) }

/-- The state grouping map of `compareStates`:
`stateMap[state.name][processId] = state`. -/
def stateMapFor (ps : List ProcEntry) (witRef : String) : JMap (JMap JObj) :=
  ps.foldl (fun sm proc =>
    ((aget ((proc.data.states).getD []) witRef).getD []).foldl (fun sm state =>
      let name := jsToString (jget state "name")
      aset sm name (aset ((aget sm name).getD []) proc.processId state)) sm) []

/-- A state difference record. -/
structure StateDiff where
  stateName : String
  presentIn : List String
  missingFrom : List String
  propertyDifferences : List PropDiff
deriving DecidableEq, Repr

/-- The conditional record for one state name. -/
def stateDiffFor (processIds : List String) (entry : String × JMap JObj) : Option StateDiff :=
  let stateName := entry.1
  let procStates := entry.2
  let presentIn := processIds.filter (fun pid => ((aget procStates pid).isSome : Bool))
  let missingFrom := processIds.filter (fun pid => (!(aget procStates pid).isSome : Bool))
  let propertyDifferences :=
    if 1 < presentIn.length then rawPropDiffs IGNORED_STATE_PROPS presentIn procStates
    else []
  if missingFrom.isEmpty && propertyDifferences.isEmpty then none
  else some { stateName, presentIn, missingFrom, propertyDifferences }

/-- The difference loop of `compareStates`. -/
def stateDiffsFor (processIds : List String) (sm : JMap (JMap JObj)) : List StateDiff :=
  sm.filterMap (stateDiffFor processIds)

/-- Result of `compareStates` for one work item type. -/
structure StateWitResult where
  all : List String
  differences : List StateDiff
  byState : JMap (JMap StateInfo)
  witRefNames : JMap JVal
deriving DecidableEq, Repr

/-- Result shape of `compareStates`. -/
structure StatesComparison where
  byWorkItemType : JMap StateWitResult
deriving DecidableEq, Repr

/-- The per-work-item-type result of `compareStates`. -/
def stateWitResultFor (ps : List ProcEntry) (witRef : String) : StateWitResult :=
  let sm := stateMapFor ps witRef
  { all := akeys sm
    differences := stateDiffsFor (procIdsOf ps) sm
    byState := sm.map (fun e => (e.1, e.2.map (fun p => (p.1, stateInfoOf e.1 p.2))))
    witRefNames := witRefNamesFor ps witRef }

/-- Model of `compareStates`. -/
def compareStates (ps : List ProcEntry) : StatesComparison :=
  { byWorkItemType := (allWitRefsOf ProcData.states ps).map (fun witRef =>
      (witRef, stateWitResultFor ps witRef)) }

/-! ## Process-level behavior comparator (`compareBehaviors`) -/

/-- The behavior grouping map:
`behaviorMap[behavior.id || behavior.referenceName][processId] = behavior`. -/
def behaviorMapOf (ps : List ProcEntry) : JMap (JMap JObj) :=
  ps.foldl (fun m proc =>
    proc.data.behaviors.foldl (fun m b =>
      let id := jsToString (jor (jget b "id") (jget b "referenceName"))
      aset m id (aset ((aget m id).getD []) proc.processId b)) m) []

/-- The display-name map `behaviorNameMap[id] = sample.name || id`. -/
def behaviorNameMapOf (bm : JMap (JMap JObj)) : JMap JVal :=
  bm.map (fun e =>
    (e.1, jor (jget ((e.2.map (fun p => p.2)).headD []) "name") (.atom (.str e.1))))

/-- A process-level behavior difference record (presence only). -/
structure BehaviorDiff where
  behaviorId : String
  behaviorName : JVal
  presentIn : List String
  missingFrom : List String
deriving DecidableEq, Repr

/-- Result shape of `compareBehaviors`. -/
structure BehaviorsComparison where
  all : List JVal
  differences : List BehaviorDiff
deriving DecidableEq, Repr

/-- The conditional record for one behavior identifier (presence only). -/
def behaviorDiffFor (processIds : List String) (nameMap : JMap JVal)
    (e : String × JMap JObj) : Option BehaviorDiff :=
  let presentIn := processIds.filter (fun pid => ((aget e.2 pid).isSome : Bool))
  let missingFrom := processIds.filter (fun pid => (!(aget e.2 pid).isSome : Bool))
  if missingFrom.isEmpty then none
  else some { behaviorId := e.1
              behaviorName := jor ((aget nameMap e.1).getD (.atom .undefined)) (.atom (.str e.1))
              presentIn, missingFrom }

/-- Model of `compareBehaviors`: identifier-aligned, presence-only. -/
def compareBehaviors (ps : List ProcEntry) : BehaviorsComparison :=
  let bm := behaviorMapOf ps
  let nameMap := behaviorNameMapOf bm
  let processIds := procIdsOf ps
  { all := (akeys bm).map (fun id => jor ((aget nameMap id).getD (.atom .undefined)) (.atom (.str id)))
    differences := bm.filterMap (behaviorDiffFor processIds nameMap) }

/-! ## Work-item-type behavior binding comparator
(`compareWorkItemTypeBehaviors`) -/

/-- The derived identifier of a work-item-type behavior binding:
`(behaviorRef.behavior && behaviorRef.behavior.id) || behaviorRef.id`. -/
def bindingIdVal (br : JObj) : JVal :=
  jor (jand (jget br "behavior") ((jget br "behavior").get "id")) (jget br "id")

/-- The binding grouping map: `behaviorRefMap[id][processId] = behaviorRef`
for bindings with a truthy derived identifier; a binding whose derived
identifier is falsy is skipped (`if (!id) continue`). -/
def behaviorRefMapFor (ps : List ProcEntry) (witRef : String) : JMap (JMap JObj) :=
  ps.foldl (fun m proc =>
    ((aget ((proc.data.workItemTypeBehaviors).getD []) witRef).getD []).foldl (fun m br =>
      if (bindingIdVal br).truthy then
        aset m (jsToString (bindingIdVal br))
          (aset ((aget m (jsToString (bindingIdVal br))).getD []) proc.processId br)
      else m) m) []

/-- A behavior binding difference record. -/
structure BindingDiff where
  behaviorId : String
  presentIn : List String
  missingFrom : List String
  propertyDifferences : List PropDiff
deriving DecidableEq, Repr

/-- The conditional record for one binding identifier: fixed compared
property list `COMPARE_PROPS`. -/
def bindingDiffFor (processIds : List String) (e : String × JMap JObj) : Option BindingDiff :=
  let behaviorId := e.1
  let procRefs := e.2
  let presentIn := processIds.filter (fun pid => ((aget procRefs pid).isSome : Bool))
  let missingFrom := processIds.filter (fun pid => (!(aget procRefs pid).isSome : Bool))
  let hasDiff := !missingFrom.isEmpty
  let propertyDifferences :=
    if 1 < presentIn.length then COMPARE_PROPS.filterMap (propDiffForProp presentIn procRefs)
    else []
  if hasDiff || !propertyDifferences.isEmpty then
    some { behaviorId, presentIn, missingFrom, propertyDifferences }
  else none

/-- The difference loop of `compareWorkItemTypeBehaviors`. -/
def bindingDiffsFor (processIds : List String) (bm : JMap (JMap JObj)) : List BindingDiff :=
  bm.filterMap (bindingDiffFor processIds)

/-- Result of `compareWorkItemTypeBehaviors` for one work item type. -/
structure BindingWitResult where
  differences : List BindingDiff
deriving DecidableEq, Repr

/-- Result shape of `compareWorkItemTypeBehaviors`. -/
structure WitBehaviorsComparison where
  byWorkItemType : JMap BindingWitResult
deriving DecidableEq, Repr

/-- The per-work-item-type result of `compareWorkItemTypeBehaviors`. -/
def bindingWitResultFor (ps : List ProcEntry) (witRef : String) : BindingWitResult :=
  { differences := bindingDiffsFor (procIdsOf ps) (behaviorRefMapFor ps witRef) }

/-- Model of `compareWorkItemTypeBehaviors`. -/
def compareWorkItemTypeBehaviors (ps : List ProcEntry) : WitBehaviorsComparison :=
  { byWorkItemType := (allWitRefsOf ProcData.workItemTypeBehaviors ps).map (fun witRef =>
      (witRef, bindingWitResultFor ps witRef)) }

/-! ## Aggregator (`runComparison`) -/

/-- The rollup counts. -/
structure CompSummary where
  totalDifferences : Nat
  witDifferences : Nat
  fieldDifferences : Nat
  stateDifferences : Nat
  behaviorDifferences : Nat
  witBehaviorDifferences : Nat
deriving DecidableEq, Repr

/-- Normalized process identity in the result. -/
structure ProcInfo where
  connectionId : String
  processId : String
  processName : JVal
  orgUrl : JVal
deriving DecidableEq, Repr

/-- The `comparison` object of the result. -/
structure Comparison where
  workItemTypes : WitComparison
  fields : FieldsComparison
  states : StatesComparison
  behaviors : BehaviorsComparison
  workItemTypeBehaviors : WitBehaviorsComparison
  summary : CompSummary
deriving DecidableEq, Repr

/-- The full comparison result. -/
structure ComparisonResult where
  processes : List ProcInfo
  comparison : Comparison
deriving DecidableEq, Repr

/-- Model of `runComparison`: normalize, run the five passes, count. -/
def runComparison (ps0 : List ProcEntry) : ComparisonResult :=
  let ps := normalizeAll ps0
  let workItemTypes := compareWorkItemTypes ps
  let fields := compareFields ps
  let states := compareStates ps
  let behaviors := compareBehaviors ps
  let workItemTypeBehaviors := compareWorkItemTypeBehaviors ps
  let fieldDiffCount := fields.byWorkItemType.foldl (fun n e => n + e.2.differences.length) 0
  let stateDiffCount := states.byWorkItemType.foldl (fun n e => n + e.2.differences.length) 0
  let witBehaviorDiffCount :=
    workItemTypeBehaviors.byWorkItemType.foldl (fun n e => n + e.2.differences.length) 0
  let witDifferences := workItemTypes.differences.length
  let behaviorDifferences := behaviors.differences.length
  { processes := ps.map (fun p =>
      { connectionId := p.connectionId
        processId := p.processId
        processName := jor (jand p.data.process (p.data.process.get "name")) (.atom (.str p.processId))
        orgUrl := jor (jor (jand p.data.process (p.data.process.get "orgUrl")) p.data.orgUrl)
          (.atom .null) })
    comparison :=
      { workItemTypes, fields, states, behaviors, workItemTypeBehaviors
        summary :=
          { totalDifferences := witDifferences + fieldDiffCount + stateDiffCount +
              behaviorDifferences + witBehaviorDiffCount
            witDifferences
            fieldDifferences := fieldDiffCount
            stateDifferences := stateDiffCount
            behaviorDifferences
            witBehaviorDifferences := witBehaviorDiffCount } } }

/-! ## Basic dictionary lemmas -/

theorem aget_aset {α : Type} : ∀ (m : JMap α) (k : String) (v : α) (k2 : String),
    aget (aset m k v) k2 = if k = k2 then some v else aget m k2
  | [], k, v, k2 => by simp [aget, aset]
  | (k1, v1) :: m, k, v, k2 => by
    by_cases h : k1 = k
    · subst h
      by_cases h2 : k1 = k2
      · subst h2; simp [aset, aget]
      · simp [aset, aget, h2]
    · by_cases h2 : k1 = k2
      · subst h2
        have hk : k ≠ k1 := fun he => h he.symm
        simp [aset, aget, h, hk]
      · simp [aset, aget, h, h2, aget_aset m k v k2]

theorem mem_aset {α : Type} : ∀ {m : JMap α} {k : String} {v : α} {p : String × α},
    p ∈ aset m k v → p ∈ m ∨ p = (k, v)
  | [], k, v, p, h => by simpa [aset] using h
  | (k1, v1) :: m, k, v, p, h => by
    by_cases hk : k1 = k
    · subst hk
      rw [aset, if_pos rfl] at h
      rcases List.mem_cons.mp h with h | h
      · right; exact h
      · left; exact List.mem_cons_of_mem _ h
    · rw [aset, if_neg hk] at h
      rcases List.mem_cons.mp h with h | h
      · subst h; left; exact List.mem_cons_self _ _
      · rcases mem_aset h with h2 | h2
        · left; exact List.mem_cons_of_mem _ h2
        · right; exact h2

theorem aget_isSome_iff_mem_akeys {α : Type} : ∀ (m : JMap α) (k : String),
    (aget m k).isSome ↔ k ∈ akeys m
  | [], k => by simp [aget, akeys]
  | (k1, v1) :: m, k => by
    by_cases h : k1 = k
    · subst h; simp [aget, akeys]
    · simp [aget, akeys, h, Ne.symm h, aget_isSome_iff_mem_akeys m k]

theorem akeys_aset_present {α : Type} : ∀ (m : JMap α) (k : String) (v : α),
    k ∈ akeys m → akeys (aset m k v) = akeys m
  | [], k, v, h => by simp [akeys] at h
  | (k1, v1) :: m, k, v, h => by
    by_cases hk : k1 = k
    · subst hk; simp [aset, akeys]
    · have h2 : k ∈ akeys m := by
        simp only [akeys, List.map_cons, List.mem_cons] at h
        rcases h with h | h
        · exact absurd h.symm hk
        · simpa [akeys] using h
      simp only [aset, if_neg hk, akeys, List.map_cons]
      congr 1
      exact akeys_aset_present m k v h2

theorem akeys_aset_absent {α : Type} : ∀ (m : JMap α) (k : String) (v : α),
    k ∉ akeys m → akeys (aset m k v) = akeys m ++ [k]
  | [], k, v, _ => by simp [aset, akeys]
  | (k1, v1) :: m, k, v, h => by
    simp only [akeys, List.map_cons, List.mem_cons] at h
    push_neg at h
    have hk : k1 ≠ k := fun he => h.1 he.symm
    simp only [aset, if_neg hk, akeys, List.map_cons, List.cons_append]
    congr 1
    exact akeys_aset_absent m k v (by simpa [akeys] using h.2)

theorem nodup_akeys_aset {α : Type} (m : JMap α) (k : String) (v : α)
    (h : (akeys m).Nodup) : (akeys (aset m k v)).Nodup := by
  by_cases hk : k ∈ akeys m
  · rw [akeys_aset_present m k v hk]; exact h
  · rw [akeys_aset_absent m k v hk]
    simpa [List.nodup_append] using ⟨h, hk⟩

theorem aget_eq_of_mem_nodup {α : Type} : ∀ {m : JMap α} {k : String} {v : α},
    (akeys m).Nodup → (k, v) ∈ m → aget m k = some v
  | [], k, v, _, h => by simp at h
  | (k1, v1) :: m, k, v, hn, h => by
    simp only [akeys, List.map_cons, List.nodup_cons] at hn
    rcases List.mem_cons.mp h with h | h
    · cases h; simp [aget]
    · have hk : k1 ≠ k := by
        intro he
        subst he
        exact hn.1 (by simpa [akeys] using List.mem_map_of_mem (fun p => p.1) h)
      simp only [aget, if_neg hk]
      exact aget_eq_of_mem_nodup (by simpa [akeys] using hn.2) h

/-! ## Fold invariants -/

theorem foldl_preserve {β σ : Type} (P : σ → Prop) (f : σ → β → σ)
    (hf : ∀ s b, P s → P (f s b)) : ∀ (l : List β) (s : σ), P s → P (l.foldl f s)
  | [], s, h => h
  | b :: l, s, h => foldl_preserve P f hf l (f s b) (hf s b h)

theorem foldl_establish {β σ : Type} (P : σ → Prop) (f : σ → β → σ)
    (hf : ∀ s b, P s → P (f s b)) (b0 : β) (hest : ∀ s, P (f s b0)) :
    ∀ (l : List β) (s : σ), b0 ∈ l → P (l.foldl f s)
  | [], _, hmem => absurd hmem (List.not_mem_nil b0)
  | x :: xs, s, hmem => by
    rcases List.mem_cons.mp hmem with h | h
    · exact foldl_preserve P f hf xs (f s x) (h ▸ hest s)
    · exact foldl_establish P f hf b0 hest xs (f s x) h

theorem aget_foldl_aset_self {α : Type} (h : String → α) :
    ∀ (l : List String) (m : JMap α) (pid : String), pid ∈ l →
      aget (l.foldl (fun m x => aset m x (h x)) m) pid = some (h pid) := by
  intro l m pid hmem
  refine foldl_establish (fun m => aget m pid = some (h pid)) _ ?_ pid ?_ l m hmem
  · intro s b hs
    rw [aget_aset]
    by_cases hb : b = pid
    · subst hb; simp
    · simp [hb, hs]
  · intro s
    rw [aget_aset]
    simp

/-! ## Serialization lemmas -/

theorem serializedSame_map_iff {β : Type} (g : β → Option String) (l : List β) :
    serializedSame (l.map g) = true ↔ ∀ a ∈ l, ∀ b ∈ l, g a = g b := by
  cases l with
  | nil => simp [serializedSame]
  | cons x xs =>
    have hss : serializedSame ((x :: xs).map g) = true ↔ ∀ v ∈ (x :: xs).map g, v = g x := by
      simp [serializedSame, List.all_eq_true]
    rw [hss]
    constructor
    · intro h a ha b hb
      have hx : ∀ c ∈ x :: xs, g c = g x := fun c hc => h (g c) (List.mem_map_of_mem g hc)
      rw [hx a ha, hx b hb]
    · intro h v hv
      rcases List.mem_map.mp hv with ⟨c, hc, he⟩
      subst he
      exact h c hc x (List.mem_cons_self x xs)

/-- The serialized value of one property for one process, as compared by
the serialize-and-compare rule. -/
def serProp (procObjs : JMap JObj) (prop : String) (pid : String) : Option String :=
  jsonStringify (nullify (jget ((aget procObjs pid).getD []) prop))

theorem propValuesFor_aget (presentIn : List String) (procObjs : JMap JObj) (prop : String)
    (pid : String) (h : pid ∈ presentIn) :
    aget (propValuesFor presentIn procObjs prop) pid =
      some (nullify (jget ((aget procObjs pid).getD []) prop)) :=
  aget_foldl_aset_self _ presentIn [] pid h

theorem propDiffForProp_serialized (presentIn : List String) (procObjs : JMap JObj)
    (prop : String) :
    (presentIn.map (fun pid =>
      jsonStringify ((aget (propValuesFor presentIn procObjs prop) pid).getD (.atom .undefined)))) =
      presentIn.map (serProp procObjs prop) := by
  apply List.map_congr_left
  intro pid hmem
  rw [propValuesFor_aget presentIn procObjs prop pid hmem]
  rfl

theorem propDiffForProp_eq_none_iff (presentIn : List String) (procObjs : JMap JObj)
    (prop : String) :
    propDiffForProp presentIn procObjs prop = none ↔
      ∀ a ∈ presentIn, ∀ b ∈ presentIn, serProp procObjs prop a = serProp procObjs prop b := by
  unfold propDiffForProp
  simp only [propDiffForProp_serialized]
  rw [← serializedSame_map_iff (serProp procObjs prop) presentIn]
  by_cases h : serializedSame (presentIn.map (serProp procObjs prop)) = true <;> simp [h]

theorem propDiffForProp_eq_some (presentIn : List String) (procObjs : JMap JObj)
    (prop : String) (pd : PropDiff)
    (h : propDiffForProp presentIn procObjs prop = some pd) :
    pd.property = prop ∧
      ¬(∀ a ∈ presentIn, ∀ b ∈ presentIn, serProp procObjs prop a = serProp procObjs prop b) := by
  constructor
  · simp only [propDiffForProp] at h
    split at h
    · exact absurd h (by simp)
    · rw [← Option.some.inj h]
  · intro hall
    rw [(propDiffForProp_eq_none_iff presentIn procObjs prop).mpr hall] at h
    exact absurd h (by simp)

/-! ## Union-of-keys and raw-diff lemmas -/

theorem mem_pushUnique {x k : String} {xs : List String} :
    x ∈ pushUnique xs k ↔ x ∈ xs ∨ x = k := by
  unfold pushUnique
  by_cases h : k ∈ xs
  · simp only [if_pos h]
    constructor
    · exact Or.inl
    · rintro (hx | rfl)
      · exact hx
      · exact h
  · simp [if_neg h, List.mem_append]

theorem mem_foldl_pushUnique_ign (ign : List String) :
    ∀ (keys : List String) (acc : List String) (x : String),
      x ∈ keys.foldl (fun acc k => if k ∈ ign then acc else pushUnique acc k) acc ↔
        x ∈ acc ∨ (x ∈ keys ∧ x ∉ ign)
  | [], acc, x => by simp
  | k :: keys, acc, x => by
    rw [List.foldl_cons]
    by_cases hk : k ∈ ign
    · rw [if_pos hk, mem_foldl_pushUnique_ign ign keys acc x]
      constructor
      · rintro (h | h)
        · exact Or.inl h
        · exact Or.inr ⟨List.mem_cons_of_mem _ h.1, h.2⟩
      · rintro (h | ⟨h1, h2⟩)
        · exact Or.inl h
        · rcases List.mem_cons.mp h1 with rfl | h1
          · exact absurd hk h2
          · exact Or.inr ⟨h1, h2⟩
    · rw [if_neg hk, mem_foldl_pushUnique_ign ign keys _ x]
      constructor
      · rintro (h | h)
        · rcases mem_pushUnique.mp h with h2 | rfl
          · exact Or.inl h2
          · exact Or.inr ⟨List.mem_cons_self _ _, hk⟩
        · exact Or.inr ⟨List.mem_cons_of_mem _ h.1, h.2⟩
      · rintro (h | ⟨h1, h2⟩)
        · exact Or.inl (mem_pushUnique.mpr (Or.inl h))
        · rcases List.mem_cons.mp h1 with rfl | h1
          · exact Or.inl (mem_pushUnique.mpr (Or.inr rfl))
          · exact Or.inr ⟨h1, h2⟩

theorem mem_allPropsOf_aux (ign : List String) (procObjs : JMap JObj) :
    ∀ (presentIn : List String) (acc : List String) (x : String),
      x ∈ presentIn.foldl (fun acc pid =>
          (akeys ((aget procObjs pid).getD [])).foldl
            (fun acc key => if key ∈ ign then acc else pushUnique acc key) acc) acc ↔
        x ∈ acc ∨ ∃ pid ∈ presentIn, x ∈ akeys ((aget procObjs pid).getD []) ∧ x ∉ ign
  | [], acc, x => by simp
  | pid :: rest, acc, x => by
    rw [List.foldl_cons, mem_allPropsOf_aux ign procObjs rest _ x,
      mem_foldl_pushUnique_ign ign _ acc x]
    constructor
    · rintro ((h | h) | ⟨pid2, hp, h⟩)
      · exact Or.inl h
      · exact Or.inr ⟨pid, List.mem_cons_self _ _, h⟩
      · exact Or.inr ⟨pid2, List.mem_cons_of_mem _ hp, h⟩
    · rintro (h | ⟨pid2, hp, h⟩)
      · exact Or.inl (Or.inl h)
      · rcases List.mem_cons.mp hp with rfl | hp
        · exact Or.inl (Or.inr h)
        · exact Or.inr ⟨pid2, hp, h⟩

theorem mem_allPropsOf_iff (ign presentIn : List String) (procObjs : JMap JObj) (x : String) :
    x ∈ allPropsOf ign presentIn procObjs ↔
      x ∉ ign ∧ ∃ pid ∈ presentIn, x ∈ akeys ((aget procObjs pid).getD []) := by
  unfold allPropsOf
  rw [mem_allPropsOf_aux ign procObjs presentIn [] x]
  constructor
  · rintro (h | ⟨pid, hp, h1, h2⟩)
    · simp at h
    · exact ⟨h2, pid, hp, h1⟩
  · rintro ⟨h2, pid, hp, h1⟩
    exact Or.inr ⟨pid, hp, h1, h2⟩

theorem rawPropDiffs_eq_nil (ign presentIn : List String) (procObjs : JMap JObj)
    (h : ∀ prop, prop ∉ ign → ∀ a ∈ presentIn, ∀ b ∈ presentIn,
      serProp procObjs prop a = serProp procObjs prop b) :
    rawPropDiffs ign presentIn procObjs = [] := by
  unfold rawPropDiffs
  apply List.filterMap_eq_nil_iff.mpr
  intro prop hmem
  have hign := ((mem_allPropsOf_iff ign presentIn procObjs prop).mp hmem).1
  exact (propDiffForProp_eq_none_iff presentIn procObjs prop).mpr (h prop hign)

theorem mem_rawPropDiffs_iff (ign presentIn : List String) (procObjs : JMap JObj)
    (prop : String) :
    (∃ pd ∈ rawPropDiffs ign presentIn procObjs, pd.property = prop) ↔
      prop ∉ ign ∧ (∃ pid ∈ presentIn, prop ∈ akeys ((aget procObjs pid).getD [])) ∧
        ¬(∀ a ∈ presentIn, ∀ b ∈ presentIn,
          serProp procObjs prop a = serProp procObjs prop b) := by
  constructor
  · rintro ⟨pd, hpd, hprop⟩
    rcases List.mem_filterMap.mp hpd with ⟨p2, hp2, hsome⟩
    have h3 := propDiffForProp_eq_some presentIn procObjs p2 pd hsome
    have hpp : p2 = prop := by rw [← h3.1, hprop]
    subst hpp
    have hm := (mem_allPropsOf_iff ign presentIn procObjs p2).mp hp2
    exact ⟨hm.1, hm.2, h3.2⟩
  · rintro ⟨h1, h2, h3⟩
    cases hc : propDiffForProp presentIn procObjs prop with
    | none => exact absurd ((propDiffForProp_eq_none_iff presentIn procObjs prop).mp hc) h3
    | some pd =>
      refine ⟨pd, List.mem_filterMap.mpr ⟨prop, ?_, hc⟩,
        (propDiffForProp_eq_some presentIn procObjs prop pd hc).1⟩
      exact (mem_allPropsOf_iff ign presentIn procObjs prop).mpr ⟨h1, h2⟩

theorem layoutPropDiffs_eq_nil (presentIn : List String) (procFields : JMap JObj)
    (fieldRefName : String) (layoutIndex : JMap (JMap ControlInfo))
    (h1 : ∀ a ∈ presentIn, ∀ b ∈ presentIn,
      fieldOnLayout procFields fieldRefName layoutIndex a =
        fieldOnLayout procFields fieldRefName layoutIndex b)
    (h2 : ∀ a ∈ presentIn, ∀ b ∈ presentIn,
      fieldLayoutVisible procFields fieldRefName layoutIndex a =
        fieldLayoutVisible procFields fieldRefName layoutIndex b) :
    layoutPropDiffs presentIn procFields fieldRefName layoutIndex = [] := by
  have key1 : (presentIn.map (fun pid =>
      (aget (presentIn.foldl (fun m pid =>
        aset m pid (fieldOnLayout procFields fieldRefName layoutIndex pid)) []) pid).map
          boolStr)) =
      presentIn.map (fun pid => some (boolStr (fieldOnLayout procFields fieldRefName
        layoutIndex pid))) := by
    apply List.map_congr_left
    intro pid hm
    rw [aget_foldl_aset_self _ presentIn [] pid hm]
    rfl
  have key2 : (presentIn.map (fun pid =>
      (aget (presentIn.foldl (fun m pid =>
        aset m pid (fieldLayoutVisible procFields fieldRefName layoutIndex pid)) []) pid).map
          boolStr)) =
      presentIn.map (fun pid => some (boolStr (fieldLayoutVisible procFields fieldRefName
        layoutIndex pid))) := by
    apply List.map_congr_left
    intro pid hm
    rw [aget_foldl_aset_self _ presentIn [] pid hm]
    rfl
  have hs1 : serializedSame (presentIn.map (fun pid =>
      some (boolStr (fieldOnLayout procFields fieldRefName layoutIndex pid)))) = true := by
    rw [serializedSame_map_iff]
    intro a ha b hb
    rw [h1 a ha b hb]
  have hs2 : serializedSame (presentIn.map (fun pid =>
      some (boolStr (fieldLayoutVisible procFields fieldRefName layoutIndex pid)))) = true := by
    rw [serializedSame_map_iff]
    intro a ha b hb
    rw [h2 a ha b hb]
  simp only [layoutPropDiffs, key1, key2, hs1, hs2, if_true, ite_self, List.append_nil]

/-! ## Key-uniqueness of the grouping maps -/

theorem nodup_akeys_fieldMapFor (ps : List ProcEntry) (witRef : String) :
    (akeys (fieldMapFor ps witRef)).Nodup :=
  foldl_preserve (fun m => (akeys m).Nodup) _
    (fun s _ hs =>
      foldl_preserve (fun m => (akeys m).Nodup) _
        (fun _ _ hs2 => nodup_akeys_aset _ _ _ hs2) _ s hs)
    ps [] (by simp [akeys])

theorem nodup_akeys_stateMapFor (ps : List ProcEntry) (witRef : String) :
    (akeys (stateMapFor ps witRef)).Nodup :=
  foldl_preserve (fun m => (akeys m).Nodup) _
    (fun s _ hs =>
      foldl_preserve (fun m => (akeys m).Nodup) _
        (fun _ _ hs2 => nodup_akeys_aset _ _ _ hs2) _ s hs)
    ps [] (by simp [akeys])

theorem nodup_akeys_behaviorRefMapFor (ps : List ProcEntry) (witRef : String) :
    (akeys (behaviorRefMapFor ps witRef)).Nodup :=
  foldl_preserve (fun m => (akeys m).Nodup) _
    (fun s _ hs =>
      foldl_preserve (fun m => (akeys m).Nodup) _
        (fun s2 br hs2 => by
          dsimp only
          split
          · exact nodup_akeys_aset _ _ _ hs2
          · exact hs2) _ s hs)
    ps [] (by simp [akeys])

theorem nodup_akeys_witByName (ps : List ProcEntry) :
    (akeys (witByName ps)).Nodup :=
  foldl_preserve (fun m => (akeys m).Nodup) _
    (fun s _ hs =>
      foldl_preserve (fun m => (akeys m).Nodup) _
        (fun _ _ hs2 => nodup_akeys_aset _ _ _ hs2) _ s hs)
    ps [] (by simp [akeys])

/-! ## Record-shape lemmas -/

theorem ite_none_some {α : Type} {c : Prop} [Decidable c] {x d : α}
    (h : (if c then none else some x) = some d) : x = d ∧ ¬c := by
  by_cases hc : c
  · rw [if_pos hc] at h
    exact absurd h (by simp)
  · rw [if_neg hc] at h
    exact ⟨Option.some.inj h, hc⟩

theorem ite_some_none {α : Type} {c : Prop} [Decidable c] {x d : α}
    (h : (if c then some x else none) = some d) : x = d ∧ c := by
  by_cases hc : c
  · rw [if_pos hc] at h
    exact ⟨Option.some.inj h, hc⟩
  · rw [if_neg hc] at h
    exact absurd h (by simp)

theorem witDiffFor_some (ps : List ProcEntry) (name : String) (d : WitDiff)
    (h : witDiffFor ps name = some d) :
    d.witName = name ∧ d.presentIn = witPresentIn ps name ∧
      d.missingFrom = witMissingFrom ps name ∧ witMissingFrom ps name ≠ [] := by
  simp only [witDiffFor] at h
  have hx := ite_none_some h
  rw [← hx.1]
  exact ⟨rfl, rfl, rfl, fun he => hx.2 (by simp [List.isEmpty_iff, he])⟩

theorem witDiffFor_of_ne (ps : List ProcEntry) (name : String)
    (h : witMissingFrom ps name ≠ []) :
    witDiffFor ps name = some
      { witName := name, presentIn := witPresentIn ps name,
        missingFrom := witMissingFrom ps name } := by
  simp only [witDiffFor]
  rw [if_neg]
  simp [List.isEmpty_iff, h]

theorem fieldDiffFor_some (processIds : List String) (layoutIndex : JMap (JMap ControlInfo))
    (entry : String × JMap JObj) (d : FieldDiff)
    (h : fieldDiffFor processIds layoutIndex entry = some d) :
    d.fieldRefName = entry.1 ∧
      d.presentIn = processIds.filter (fun pid => ((aget entry.2 pid).isSome : Bool)) ∧
      d.missingFrom = processIds.filter (fun pid => (!(aget entry.2 pid).isSome : Bool)) := by
  simp only [fieldDiffFor] at h
  rw [← (ite_none_some h).1]
  exact ⟨rfl, rfl, rfl⟩

theorem stateDiffFor_some (processIds : List String) (entry : String × JMap JObj)
    (d : StateDiff) (h : stateDiffFor processIds entry = some d) :
    d.stateName = entry.1 ∧
      d.presentIn = processIds.filter (fun pid => ((aget entry.2 pid).isSome : Bool)) ∧
      d.missingFrom = processIds.filter (fun pid => (!(aget entry.2 pid).isSome : Bool)) := by
  simp only [stateDiffFor] at h
  rw [← (ite_none_some h).1]
  exact ⟨rfl, rfl, rfl⟩

theorem behaviorDiffFor_some (processIds : List String) (nameMap : JMap JVal)
    (entry : String × JMap JObj) (d : BehaviorDiff)
    (h : behaviorDiffFor processIds nameMap entry = some d) :
    d.behaviorId = entry.1 ∧
      d.presentIn = processIds.filter (fun pid => ((aget entry.2 pid).isSome : Bool)) ∧
      d.missingFrom = processIds.filter (fun pid => (!(aget entry.2 pid).isSome : Bool)) := by
  simp only [behaviorDiffFor] at h
  rw [← (ite_none_some h).1]
  exact ⟨rfl, rfl, rfl⟩

theorem bindingDiffFor_some (processIds : List String) (entry : String × JMap JObj)
    (d : BindingDiff) (h : bindingDiffFor processIds entry = some d) :
    d.behaviorId = entry.1 ∧
      d.presentIn = processIds.filter (fun pid => ((aget entry.2 pid).isSome : Bool)) ∧
      d.missingFrom = processIds.filter (fun pid => (!(aget entry.2 pid).isSome : Bool)) := by
  simp only [bindingDiffFor] at h
  rw [← (ite_some_none h).1]
  exact ⟨rfl, rfl, rfl⟩

/-! ## Partition of the process id list -/

/-- The lists `presentIn` and `missingFrom` partition the supplied process id
list: same members, no overlap. -/
def PartitionOf (presentIn missingFrom ids : List String) : Prop :=
  (∀ x, x ∈ ids ↔ x ∈ presentIn ∨ x ∈ missingFrom) ∧
  (∀ x, x ∈ presentIn → x ∉ missingFrom)

theorem filter_partition (ids : List String) (p : String → Bool) :
    PartitionOf (ids.filter p) (ids.filter (fun x => !p x)) ids := by
  constructor
  · intro x
    by_cases h : p x = true <;> simp [List.mem_filter, h]
  · intro x hx hy
    have h1 := (List.mem_filter.mp hx).2
    have h2 := (List.mem_filter.mp hy).2
    rw [h1] at h2
    simp at h2

/-! ## No-record conditions -/

theorem fieldDiffFor_eq_none (ids : List String) (li : JMap (JMap ControlInfo))
    (k : String) (pf : JMap JObj)
    (hpres : ∀ pid ∈ ids, (aget pf pid).isSome)
    (hraw : rawPropDiffs IGNORED_FIELD_PROPS ids pf = [])
    (hlay : layoutPropDiffs ids pf k li = []) :
    fieldDiffFor ids li (k, pf) = none := by
  have hfil : ids.filter (fun pid => ((aget pf pid).isSome : Bool)) = ids :=
    List.filter_eq_self.mpr hpres
  have hmiss : ids.filter (fun pid => (!(aget pf pid).isSome : Bool)) = [] := by
    apply List.filter_eq_nil_iff.mpr
    intro pid hm
    simp [hpres pid hm]
  simp only [fieldDiffFor, hfil, hmiss, hraw, hlay]
  simp

theorem stateDiffFor_eq_none (ids : List String) (k : String) (pf : JMap JObj)
    (hpres : ∀ pid ∈ ids, (aget pf pid).isSome)
    (hraw : rawPropDiffs IGNORED_STATE_PROPS ids pf = []) :
    stateDiffFor ids (k, pf) = none := by
  have hfil : ids.filter (fun pid => ((aget pf pid).isSome : Bool)) = ids :=
    List.filter_eq_self.mpr hpres
  have hmiss : ids.filter (fun pid => (!(aget pf pid).isSome : Bool)) = [] := by
    apply List.filter_eq_nil_iff.mpr
    intro pid hm
    simp [hpres pid hm]
  simp only [stateDiffFor, hfil, hmiss, hraw]
  simp

theorem bindingDiffFor_eq_none (ids : List String) (k : String) (pf : JMap JObj)
    (hpres : ∀ pid ∈ ids, (aget pf pid).isSome)
    (hprops : ∀ prop ∈ COMPARE_PROPS, ∀ a ∈ ids, ∀ b ∈ ids,
      serProp pf prop a = serProp pf prop b) :
    bindingDiffFor ids (k, pf) = none := by
  have hfil : ids.filter (fun pid => ((aget pf pid).isSome : Bool)) = ids :=
    List.filter_eq_self.mpr hpres
  have hmiss : ids.filter (fun pid => (!(aget pf pid).isSome : Bool)) = [] := by
    apply List.filter_eq_nil_iff.mpr
    intro pid hm
    simp [hpres pid hm]
  have hcp : COMPARE_PROPS.filterMap (propDiffForProp ids pf) = [] := by
    apply List.filterMap_eq_nil_iff.mpr
    intro prop hm
    exact (propDiffForProp_eq_none_iff ids pf prop).mpr (hprops prop hm)
  simp only [bindingDiffFor, hfil, hmiss, hcp]
  simp

/-- Every entry of a `byWorkItemType` list carries the per-type result of
its own key. -/
theorem mem_map_pair {α : Type} (F : String → α) {l : List String} {e : String × α}
    (h : e ∈ l.map (fun x => (x, F x))) : e.2 = F e.1 := by
  rcases List.mem_map.mp h with ⟨x, _, he⟩
  rw [← he]

/-! ## Concrete inputs used by the claim theorems -/

/-- Process A's copy of the "Priority" field (reference name `r1`). -/
def fObjC1A : JObj := [("referenceName", .atom (.str "r1")), ("name", .atom (.str "Priority"))]

/-- Process B's copy of the "Priority" field (reference name `r2`). -/
def fObjC1B : JObj := [("referenceName", .atom (.str "r2")), ("name", .atom (.str "Priority"))]

/-- Two processes sharing the field display name "Priority" under
distinct reference names. -/
def exC1 : List ProcEntry :=
  [{ processId := "A", data := { fields := some [("Bug", [fObjC1A])] } },
   { processId := "B", data := { fields := some [("Bug", [fObjC1B])] } }]

/-- Process A's field with `priority` stored as the string "1". -/
def fObjC2A : JObj :=
  [("referenceName", .atom (.str "r")), ("name", .atom (.str "N")),
   ("priority", .atom (.str "1"))]

/-- Process B's field with `priority` stored as the number 1. -/
def fObjC2B : JObj :=
  [("referenceName", .atom (.str "r")), ("name", .atom (.str "N")),
   ("priority", .atom (.num 1))]

/-- Two processes storing the same property as a string in one and a
number in the other. -/
def exC2 : List ProcEntry :=
  [{ processId := "A", data := { fields := some [("Bug", [fObjC2A])] } },
   { processId := "B", data := { fields := some [("Bug", [fObjC2B])] } }]

/-- A process-level behavior present only in process A. -/
def exC3 : List ProcEntry :=
  [{ processId := "A", data := { behaviors := [[("id", .atom (.str "b1"))]] } },
   { processId := "B", data := { behaviors := [] } }]

/-- C3: for every comparison and every emitted difference record (work
item type, field, state, process behavior, or behavior binding), the
record's `presentIn` and `missingFrom` lists partition the full supplied
process id list: their union equals the full list and their intersection
is empty. -/
theorem c3_presence_partition (ps : List ProcEntry) :
    (∀ d ∈ (compareWorkItemTypes ps).differences,
      PartitionOf d.presentIn d.missingFrom (procIdsOf ps)) ∧
    (∀ e ∈ (compareFields ps).byWorkItemType, ∀ d ∈ e.2.differences,
      PartitionOf d.presentIn d.missingFrom (procIdsOf ps)) ∧
    (∀ e ∈ (compareStates ps).byWorkItemType, ∀ d ∈ e.2.differences,
      PartitionOf d.presentIn d.missingFrom (procIdsOf ps)) ∧
    (∀ d ∈ (compareBehaviors ps).differences,
      PartitionOf d.presentIn d.missingFrom (procIdsOf ps)) ∧
    (∀ e ∈ (compareWorkItemTypeBehaviors ps).byWorkItemType, ∀ d ∈ e.2.differences,
      PartitionOf d.presentIn d.missingFrom (procIdsOf ps)) := by
  refine ⟨?_, ?_, ?_, ?_, ?_⟩
  · intro d hd
    have hd2 : d ∈ ((akeys (witByName ps)).insertionSort locLe).filterMap (witDiffFor ps) := hd
    rcases List.mem_filterMap.mp hd2 with ⟨name, _, hsome⟩
    have hs := witDiffFor_some ps name d hsome
    rw [hs.2.1, hs.2.2.1]
    exact filter_partition (procIdsOf ps) _
  · intro e he d hd
    have h2 : e.2 = fieldWitResultFor ps e.1 := mem_map_pair _ he
    have h3 : (fieldWitResultFor ps e.1).differences =
        fieldDiffsFor (procIdsOf ps) (fieldMapFor ps e.1) (layoutIndexFor ps e.1) := rfl
    rw [h2, h3] at hd
    rcases List.mem_filterMap.mp hd with ⟨entry, _, hsome⟩
    have hs := fieldDiffFor_some _ _ _ _ hsome
    rw [hs.2.1, hs.2.2]
    exact filter_partition (procIdsOf ps) _
  · intro e he d hd
    have h2 : e.2 = stateWitResultFor ps e.1 := mem_map_pair _ he
    have h3 : (stateWitResultFor ps e.1).differences =
        stateDiffsFor (procIdsOf ps) (stateMapFor ps e.1) := rfl
    rw [h2, h3] at hd
    rcases List.mem_filterMap.mp hd with ⟨entry, _, hsome⟩
    have hs := stateDiffFor_some _ _ _ hsome
    rw [hs.2.1, hs.2.2]
    exact filter_partition (procIdsOf ps) _
  · intro d hd
    have h3 : (compareBehaviors ps).differences =
        (behaviorMapOf ps).filterMap
          (behaviorDiffFor (procIdsOf ps) (behaviorNameMapOf (behaviorMapOf ps))) := rfl
    rw [h3] at hd
    rcases List.mem_filterMap.mp hd with ⟨entry, _, hsome⟩
    have hs := behaviorDiffFor_some _ _ _ _ hsome
    rw [hs.2.1, hs.2.2]
    exact filter_partition (procIdsOf ps) _
  · intro e he d hd
    have h2 : e.2 = bindingWitResultFor ps e.1 := mem_map_pair _ he
    have h3 : (bindingWitResultFor ps e.1).differences =
        bindingDiffsFor (procIdsOf ps) (behaviorRefMapFor ps e.1) := rfl
    rw [h2, h3] at hd
    rcases List.mem_filterMap.mp hd with ⟨entry, _, hsome⟩
    have hs := bindingDiffFor_some _ _ _ hsome
    rw [hs.2.1, hs.2.2]
    exact filter_partition (procIdsOf ps) _

/-- Witness for C3: the presence record of behavior `b1` (present in A,
missing from B) partitions the two supplied process ids. -/
theorem c3_presence_partition_witness : PartitionOf ["A"] ["B"] (procIdsOf exC3) := by
  have hmem : ({ behaviorId := "b1",
                 behaviorName := JVal.atom (.str "b1"),
                 presentIn := ["A"],
                 missingFrom := ["B"] } : BehaviorDiff) ∈
      (compareBehaviors exC3).differences := by decide
  simpa using (c3_presence_partition exC3).2.2.2.1 _ hmem

/-- C2: for every field present in at least two processes, the raw
property pass of the field comparator diffs exactly the union of property
keys over all present copies minus the ignore-set
{url, customization, hidden, isLocked}, comparing the JSON serialization
of each process's value (with `undefined` treated as `null`) and flagging
a property if and only if the serialized forms are not all identical; in
particular (second conjunct), a property stored as the string "1" in one
process and the number 1 in another is flagged. -/
theorem c2_exact_serialized_diffing :
    (∀ (ps : List ProcEntry) (witRef k : String) (pf : JMap JObj),
      aget (fieldMapFor ps witRef) k = some pf →
      2 ≤ ((procIdsOf ps).filter (fun pid => ((aget pf pid).isSome : Bool))).length →
      ∀ prop,
        ((∃ pd ∈ rawPropDiffs IGNORED_FIELD_PROPS
            ((procIdsOf ps).filter (fun pid => ((aget pf pid).isSome : Bool))) pf,
            pd.property = prop) ↔
          (prop ∉ IGNORED_FIELD_PROPS ∧
            (∃ pid ∈ (procIdsOf ps).filter (fun pid => ((aget pf pid).isSome : Bool)),
              prop ∈ akeys ((aget pf pid).getD [])) ∧
            ¬(∀ a ∈ (procIdsOf ps).filter (fun pid => ((aget pf pid).isSome : Bool)),
              ∀ b ∈ (procIdsOf ps).filter (fun pid => ((aget pf pid).isSome : Bool)),
                serProp pf prop a = serProp pf prop b)))) ∧
    (∃ e ∈ (compareFields exC2).byWorkItemType, ∃ d ∈ e.2.differences,
      ∃ pd ∈ d.propertyDifferences, pd.property = "priority" ∧
        pd.values = [("A", .atom (.str "1")), ("B", .atom (.num 1))]) := by
  constructor
  · intro ps witRef k pf _ _ prop
    exact mem_rawPropDiffs_iff IGNORED_FIELD_PROPS _ pf prop
  · decide

/-- Witness for C2: at the concrete two-process input, the theorem's
characterization flags the `priority` property (string "1" vs number 1). -/
theorem c2_exact_serialized_diffing_witness :
    ∃ pd ∈ rawPropDiffs IGNORED_FIELD_PROPS
      ((procIdsOf exC2).filter (fun pid =>
        ((aget [("A", fObjC2A), ("B", fObjC2B)] pid).isSome : Bool)))
      [("A", fObjC2A), ("B", fObjC2B)],
      pd.property = "priority" :=
  (c2_exact_serialized_diffing.1 exC2 "Bug" "r" [("A", fObjC2A), ("B", fObjC2B)]
    (by decide) (by decide) "priority").mpr (by decide)

/-- Process A's and B's identical copy of the field aligned under
reference name `r`. -/
def fObjC4 : JObj := [("referenceName", .atom (.str "r")), ("name", .atom (.str "N"))]

/-- The extra field present only in process A. -/
def fObjC4S : JObj := [("referenceName", .atom (.str "s")), ("name", .atom (.str "S"))]

/-- Two processes with one identical shared field and one field present
only in process A. -/
def exC4 : List ProcEntry :=
  [{ processId := "A", data := { fields := some [("Bug", [fObjC4, fObjC4S])] } },
   { processId := "B", data := { fields := some [("Bug", [fObjC4])] } }]

/-- The grouped per-process copies of field `r` in `exC4`. -/
def pfC4 : JMap JObj := [("A", fObjC4), ("B", fObjC4)]

/-- C4: a field, state, or behavior binding that is present in every
supplied process and whose compared properties all have identical
serialized values across those processes produces no difference record at
all: the per-type differences list contains no record keyed by that
entity. -/
theorem c4_no_record_when_identical :
    (∀ (ps : List ProcEntry) (witRef k : String) (pf : JMap JObj),
      aget (fieldMapFor ps witRef) k = some pf →
      (∀ pid ∈ procIdsOf ps, (aget pf pid).isSome) →
      (∀ prop, prop ∉ IGNORED_FIELD_PROPS → ∀ a ∈ procIdsOf ps, ∀ b ∈ procIdsOf ps,
        serProp pf prop a = serProp pf prop b) →
      (∀ a ∈ procIdsOf ps, ∀ b ∈ procIdsOf ps,
        fieldOnLayout pf k (layoutIndexFor ps witRef) a =
          fieldOnLayout pf k (layoutIndexFor ps witRef) b) →
      (∀ a ∈ procIdsOf ps, ∀ b ∈ procIdsOf ps,
        fieldLayoutVisible pf k (layoutIndexFor ps witRef) a =
          fieldLayoutVisible pf k (layoutIndexFor ps witRef) b) →
      ∀ e ∈ (compareFields ps).byWorkItemType, e.1 = witRef →
        ∀ d ∈ e.2.differences, d.fieldRefName ≠ k) ∧
    (∀ (ps : List ProcEntry) (witRef k : String) (pf : JMap JObj),
      aget (stateMapFor ps witRef) k = some pf →
      (∀ pid ∈ procIdsOf ps, (aget pf pid).isSome) →
      (∀ prop, prop ∉ IGNORED_STATE_PROPS → ∀ a ∈ procIdsOf ps, ∀ b ∈ procIdsOf ps,
        serProp pf prop a = serProp pf prop b) →
      ∀ e ∈ (compareStates ps).byWorkItemType, e.1 = witRef →
        ∀ d ∈ e.2.differences, d.stateName ≠ k) ∧
    (∀ (ps : List ProcEntry) (witRef k : String) (pf : JMap JObj),
      aget (behaviorRefMapFor ps witRef) k = some pf →
      (∀ pid ∈ procIdsOf ps, (aget pf pid).isSome) →
      (∀ prop ∈ COMPARE_PROPS, ∀ a ∈ procIdsOf ps, ∀ b ∈ procIdsOf ps,
        serProp pf prop a = serProp pf prop b) →
      ∀ e ∈ (compareWorkItemTypeBehaviors ps).byWorkItemType, e.1 = witRef →
        ∀ d ∈ e.2.differences, d.behaviorId ≠ k) := by
  refine ⟨?_, ?_, ?_⟩
  · intro ps witRef k pf hget hpres hraw hl1 hl2 e he heq d hd hkeq
    have h2 : e.2 = fieldWitResultFor ps e.1 := mem_map_pair _ he
    rw [heq] at h2
    have h3 : (fieldWitResultFor ps witRef).differences =
        fieldDiffsFor (procIdsOf ps) (fieldMapFor ps witRef) (layoutIndexFor ps witRef) := rfl
    rw [h2, h3] at hd
    rcases List.mem_filterMap.mp hd with ⟨entry, hentry, hsome⟩
    have hs := fieldDiffFor_some _ _ _ _ hsome
    have hek : entry.1 = k := by rw [← hs.1, hkeq]
    have hget2 : aget (fieldMapFor ps witRef) entry.1 = some entry.2 :=
      aget_eq_of_mem_nodup (nodup_akeys_fieldMapFor ps witRef) hentry
    rw [hek] at hget2
    have hpf : pf = entry.2 := Option.some.inj (hget.symm.trans hget2)
    have hraw2 : rawPropDiffs IGNORED_FIELD_PROPS (procIdsOf ps) pf = [] :=
      rawPropDiffs_eq_nil _ _ _ hraw
    have hlay2 : layoutPropDiffs (procIdsOf ps) pf k (layoutIndexFor ps witRef) = [] :=
      layoutPropDiffs_eq_nil _ _ _ _ hl1 hl2
    have hnone := fieldDiffFor_eq_none (procIdsOf ps) (layoutIndexFor ps witRef) k pf
      hpres hraw2 hlay2
    have hent : entry = (k, pf) := Prod.ext hek (hpf.symm)
    rw [hent, hnone] at hsome
    exact absurd hsome (by simp)
  · intro ps witRef k pf hget hpres hraw e he heq d hd hkeq
    have h2 : e.2 = stateWitResultFor ps e.1 := mem_map_pair _ he
    rw [heq] at h2
    have h3 : (stateWitResultFor ps witRef).differences =
        stateDiffsFor (procIdsOf ps) (stateMapFor ps witRef) := rfl
    rw [h2, h3] at hd
    rcases List.mem_filterMap.mp hd with ⟨entry, hentry, hsome⟩
    have hs := stateDiffFor_some _ _ _ hsome
    have hek : entry.1 = k := by rw [← hs.1, hkeq]
    have hget2 : aget (stateMapFor ps witRef) entry.1 = some entry.2 :=
      aget_eq_of_mem_nodup (nodup_akeys_stateMapFor ps witRef) hentry
    rw [hek] at hget2
    have hpf : pf = entry.2 := Option.some.inj (hget.symm.trans hget2)
    have hraw2 : rawPropDiffs IGNORED_STATE_PROPS (procIdsOf ps) pf = [] :=
      rawPropDiffs_eq_nil _ _ _ hraw
    have hnone := stateDiffFor_eq_none (procIdsOf ps) k pf hpres hraw2
    have hent : entry = (k, pf) := Prod.ext hek (hpf.symm)
    rw [hent, hnone] at hsome
    exact absurd hsome (by simp)
  · intro ps witRef k pf hget hpres hprops e he heq d hd hkeq
    have h2 : e.2 = bindingWitResultFor ps e.1 := mem_map_pair _ he
    rw [heq] at h2
    have h3 : (bindingWitResultFor ps witRef).differences =
        bindingDiffsFor (procIdsOf ps) (behaviorRefMapFor ps witRef) := rfl
    rw [h2, h3] at hd
    rcases List.mem_filterMap.mp hd with ⟨entry, hentry, hsome⟩
    have hs := bindingDiffFor_some _ _ _ hsome
    have hek : entry.1 = k := by rw [← hs.1, hkeq]
    have hget2 : aget (behaviorRefMapFor ps witRef) entry.1 = some entry.2 :=
      aget_eq_of_mem_nodup (nodup_akeys_behaviorRefMapFor ps witRef) hentry
    rw [hek] at hget2
    have hpf : pf = entry.2 := Option.some.inj (hget.symm.trans hget2)
    have hnone := bindingDiffFor_eq_none (procIdsOf ps) k pf hpres hprops
    have hent : entry = (k, pf) := Prod.ext hek (hpf.symm)
    rw [hent, hnone] at hsome
    exact absurd hsome (by simp)

/-- Witness for C4: in `exC4` the only emitted field record is for the
field present only in process A; the identically-configured field `r`
(present in both) produces no record, so the emitted record's key
differs from `r`. -/
theorem c4_no_record_when_identical_witness :
    ({ fieldRefName := "s",
       fieldName := JVal.atom (.str "S"),
       presentIn := ["A"],
       missingFrom := ["B"],
       propertyDifferences := [] } : FieldDiff).fieldRefName ≠ "r" := by
  have hmem : ∀ x ∈ procIdsOf exC4, aget pfC4 x = some fObjC4 := by decide
  have hol : ∀ x ∈ procIdsOf exC4,
      fieldOnLayout pfC4 "r" (layoutIndexFor exC4 "Bug") x = false := by decide
  have hvi : ∀ x ∈ procIdsOf exC4,
      fieldLayoutVisible pfC4 "r" (layoutIndexFor exC4 "Bug") x = false := by decide
  refine c4_no_record_when_identical.1 exC4 "Bug" "r" pfC4 (by decide) (by decide)
    (fun prop _ a ha b hb => by unfold serProp; rw [hmem a ha, hmem b hb])
    (fun a ha b hb => by rw [hol a ha, hol b hb])
    (fun a ha b hb => by rw [hvi a ha, hvi b hb])
    ("Bug", fieldWitResultFor exC4 "Bug") (by decide) rfl _ (by decide)

/-- Work item type "Bug" defined only in process A. -/
def exC5 : List ProcEntry :=
  [{ processId := "A", data := { workItemTypes := [{ name := .atom (.str "Bug") }] } },
   { processId := "B", data := {} }]

/-- C5: the work-item-type aligner emits a difference record for a
display name if and only if that name's `missingFrom` list is non-empty;
every emitted record carries presence information only (`witName`,
`presentIn`, `missingFrom` — the `WitDiff` record type has no property
differences), so attribute mismatches such as differing `isDisabled`
values between present processes never produce a record and are
observable only through the per-process `byName` attribute map. -/
theorem c5_wit_presence_only (ps : List ProcEntry) :
    (∀ d ∈ (compareWorkItemTypes ps).differences,
      d.presentIn = witPresentIn ps d.witName ∧
      d.missingFrom = witMissingFrom ps d.witName ∧ d.missingFrom ≠ []) ∧
    (∀ name, (∃ d ∈ (compareWorkItemTypes ps).differences, d.witName = name) ↔
      (name ∈ akeys (witByName ps) ∧ witMissingFrom ps name ≠ [])) := by
  constructor
  · intro d hd
    have hd2 : d ∈ ((akeys (witByName ps)).insertionSort locLe).filterMap (witDiffFor ps) := hd
    rcases List.mem_filterMap.mp hd2 with ⟨name, _, hsome⟩
    have hs := witDiffFor_some ps name d hsome
    rw [hs.1]
    exact ⟨hs.2.1, hs.2.2.1, by rw [hs.2.2.1]; exact hs.2.2.2⟩
  · intro name
    constructor
    · rintro ⟨d, hd, hname⟩
      have hd2 : d ∈ ((akeys (witByName ps)).insertionSort locLe).filterMap (witDiffFor ps) := hd
      rcases List.mem_filterMap.mp hd2 with ⟨n2, hn2, hsome⟩
      have hs := witDiffFor_some ps n2 d hsome
      have he : n2 = name := by rw [← hs.1, hname]
      subst he
      exact ⟨(List.perm_insertionSort locLe _).mem_iff.mp hn2, hs.2.2.2⟩
    · rintro ⟨hmem, hne⟩
      refine ⟨{ witName := name, presentIn := witPresentIn ps name,
                missingFrom := witMissingFrom ps name }, ?_, rfl⟩
      show _ ∈ ((akeys (witByName ps)).insertionSort locLe).filterMap (witDiffFor ps)
      exact List.mem_filterMap.mpr
        ⟨name, (List.perm_insertionSort locLe _).mem_iff.mpr hmem, witDiffFor_of_ne ps name hne⟩

/-- Witness for C5: "Bug" is missing from process B, so the aligner
emits a record for it. -/
theorem c5_wit_presence_only_witness :
    ∃ d ∈ (compareWorkItemTypes exC5).differences, d.witName = "Bug" :=
  ((c5_wit_presence_only exC5).2 "Bug").mpr (by decide)

/-- A work item type named "A". -/
def witC9A : Wit := { name := .atom (.str "A") }

/-- A work item type named "a". -/
def witC9a : Wit := { name := .atom (.str "a") }

/-- One process defining types "A" then "a" (names differing only in
letter case). -/
def exC9 : List ProcEntry :=
  [{ processId := "P", data := { workItemTypes := [witC9A, witC9a] } }]

/-- C9 (amended): the aligner's `all` list contains the unique display
names sorted under the default `localeCompare` collation, which is
locale-aware but *case-sensitive*: names differing only in letter case
are strictly ordered (lowercase first under the ICU root collation), not
treated as equal. -/
theorem c9_sorted_unique_names (ps : List ProcEntry) :
    List.Sorted locLe (compareWorkItemTypes ps).all ∧
    (compareWorkItemTypes ps).all.Nodup ∧
    ∀ n, n ∈ (compareWorkItemTypes ps).all ↔ n ∈ akeys (witByName ps) := by
  have hall : (compareWorkItemTypes ps).all = (akeys (witByName ps)).insertionSort locLe := rfl
  rw [hall]
  refine ⟨List.sorted_insertionSort locLe _, ?_, ?_⟩
  · exact ((List.perm_insertionSort locLe _).nodup_iff).mpr (nodup_akeys_witByName ps)
  · intro n
    exact (List.perm_insertionSort locLe _).mem_iff

/-- Counterexample for C9: the display names "A" and "a" differ only in
letter case (equal primary collation keys), yet the comparison does not
treat them as equal — it strictly reorders them (lowercase first), so
the sort is not case-insensitive in the claimed sense. -/
theorem c9_counterexample :
    akeys (witByName exC9) = ["A", "a"] ∧
    (compareWorkItemTypes exC9).all = ["a", "A"] ∧
    primKey "A" = primKey "a" ∧ localeOrd "A" "a" ≠ .eq := by decide

theorem foldl_count {α : Type} (f : α → Nat) : ∀ (l : List α) (n : Nat),
    l.foldl (fun n e => n + f e) n = n + (l.map f).sum
  | [], n => by simp
  | x :: xs, n => by
    rw [List.foldl_cons, foldl_count f xs (n + f x), List.map_cons, List.sum_cons]
    omega

/-- C6: the aggregator's summary counts are exactly: `witDifferences` =
number of work-item-type records, `fieldDifferences` /
`stateDifferences` / `witBehaviorDifferences` = sums over all work item
types of the per-type record counts, `behaviorDifferences` = number of
process-level behavior records, and `totalDifferences` = the sum of the
five. -/
theorem c6_summary_counts (ps : List ProcEntry) :
    (runComparison ps).comparison.summary.witDifferences =
      (runComparison ps).comparison.workItemTypes.differences.length ∧
    (runComparison ps).comparison.summary.fieldDifferences =
      ((runComparison ps).comparison.fields.byWorkItemType.map
        (fun e => e.2.differences.length)).sum ∧
    (runComparison ps).comparison.summary.stateDifferences =
      ((runComparison ps).comparison.states.byWorkItemType.map
        (fun e => e.2.differences.length)).sum ∧
    (runComparison ps).comparison.summary.behaviorDifferences =
      (runComparison ps).comparison.behaviors.differences.length ∧
    (runComparison ps).comparison.summary.witBehaviorDifferences =
      ((runComparison ps).comparison.workItemTypeBehaviors.byWorkItemType.map
        (fun e => e.2.differences.length)).sum ∧
    (runComparison ps).comparison.summary.totalDifferences =
      (runComparison ps).comparison.summary.witDifferences +
      (runComparison ps).comparison.summary.fieldDifferences +
      (runComparison ps).comparison.summary.stateDifferences +
      (runComparison ps).comparison.summary.behaviorDifferences +
      (runComparison ps).comparison.summary.witBehaviorDifferences := by
  simp only [runComparison]
  refine ⟨trivial, ?_, ?_, trivial, ?_, trivial⟩
  · rw [foldl_count]
    simp
  · rw [foldl_count]
    simp
  · rw [foldl_count]
    simp

theorem deriveStep_isSome_mono {α : Type} (g : Wit → Option α) (m : JMap α) (w : Wit)
    (k : String) (h : (aget m k).isSome) : (aget (deriveStep g m w) k).isSome := by
  unfold deriveStep
  cases g w with
  | none => exact h
  | some v =>
    dsimp only
    split
    · rw [aget_aset]
      by_cases hk : witKey w = k
      · simp [hk]
      · simp [hk, h]
    · exact h

theorem deriveStep_isSome_self {α : Type} (g : Wit → Option α) (m : JMap α) (w : Wit)
    (v : α) (hg : g w = some v) : (aget (deriveStep g m w) (witKey w)).isSome := by
  unfold deriveStep
  rw [hg]
  dsimp only
  split
  · rw [aget_aset]
    simp
  · rename_i hn
    cases ho : aget m (witKey w) with
    | none => rw [ho] at hn; simp at hn
    | some x => simp

theorem deriveStep_eq_of_isSome {α : Type} (g : Wit → Option α) (m : JMap α) (w : Wit)
    (h : (aget m (witKey w)).isSome) : deriveStep g m w = m := by
  have hnn : ¬((aget m (witKey w)).isNone = true) := by
    cases ho : aget m (witKey w) with
    | none => rw [ho] at h; simp at h
    | some x => simp
  unfold deriveStep
  cases g w with
  | none => rfl
  | some v =>
    dsimp only
    rw [if_neg hnn]

theorem deriveIdx_isSome_mono {α : Type} (g : Wit → Option α) :
    ∀ (ws : List Wit) (m : JMap α) (k : String),
      (aget m k).isSome → (aget (deriveIdx g m ws) k).isSome
  | [], _, _, h => h
  | w :: ws, m, k, h =>
    deriveIdx_isSome_mono g ws (deriveStep g m w) k (deriveStep_isSome_mono g m w k h)

theorem deriveIdx_idem {α : Type} (g : Wit → Option α) :
    ∀ (ws : List Wit) (m : JMap α), deriveIdx g (deriveIdx g m ws) ws = deriveIdx g m ws
  | [], _ => rfl
  | w :: ws, m => by
    have h1 : deriveStep g (deriveIdx g (deriveStep g m w) ws) w =
        deriveIdx g (deriveStep g m w) ws := by
      cases hg : g w with
      | none => simp [deriveStep, hg]
      | some v =>
        exact deriveStep_eq_of_isSome g _ w
          (deriveIdx_isSome_mono g ws _ _ (deriveStep_isSome_self g m w v hg))
    show deriveIdx g (deriveStep g (deriveIdx g (deriveStep g m w) ws) w) ws =
        deriveIdx g (deriveStep g m w) ws
    rw [h1]
    exact deriveIdx_idem g ws (deriveStep g m w)

/-- C7: normalization is idempotent — normalizing an already-normalized
snapshot leaves it (in particular all four derived maps: fields, states,
workItemTypeBehaviors, layouts) unchanged, because the first-writer-wins
rule never overwrites an entry that exists. -/
theorem c7_normalize_idempotent (d : ProcData) :
    normalizeData (normalizeData d) = normalizeData d := by
  simp [normalizeData, deriveIdx_idem]

/-- C1 (amended): field alignment across processes is by *reference
name* (`field.referenceName || field.name`), not by display name — every
per-process copy grouped under a key `k` of the field map has
`fkey copy = k`; two occurrences of the same display name under
different reference names are therefore two separate entities, each
reported as a presence difference, with `byField` keeping only the last
one processed. -/
theorem c1_alignment_by_reference_name (ps : List ProcEntry) (witRef : String) :
    ∀ (k : String) (pf : JMap JObj) (pid : String) (f : JObj),
      aget (fieldMapFor ps witRef) k = some pf → (pid, f) ∈ pf → fkey f = k := by
  unfold fieldMapFor
  refine foldl_preserve
    (fun m => ∀ k pf pid f, aget m k = some pf → (pid, f) ∈ pf → fkey f = k) _ ?_ ps [] ?_
  · intro s proc hs
    refine foldl_preserve
      (fun m => ∀ k pf pid f, aget m k = some pf → (pid, f) ∈ pf → fkey f = k) _ ?_ _ s hs
    intro m field hm k pf pid f hget hmem
    rw [aget_aset] at hget
    by_cases hk : fkey field = k
    · rw [if_pos hk] at hget
      rw [← Option.some.inj hget] at hmem
      rcases mem_aset hmem with h2 | h2
      · cases ho : aget m (fkey field) with
        | none => rw [ho] at h2; simp at h2
        | some inner =>
          rw [ho] at h2
          simp only [Option.getD_some] at h2
          have := hm (fkey field) inner pid f ho h2
          rw [this]
          exact hk
      · injection h2 with ha hb
        rw [hb]
        exact hk
    · rw [if_neg hk] at hget
      exact hm k pf pid f hget hmem
  · intro k pf pid f hget _
    simp [aget] at hget

/-- Witness for C1: process B's copy of "Priority" is grouped under its
own reference name `r2`. -/
theorem c1_alignment_by_reference_name_witness : fkey fObjC1B = "r2" :=
  c1_alignment_by_reference_name exC1 "Bug" "r2" [("B", fObjC1B)] "B" fObjC1B
    (by decide) (by decide)

/-- Counterexample for C1: with the same display name "Priority" under
reference names `r1` (process A) and `r2` (process B), the two
occurrences are *not* aligned as one entity: a presence-difference
record is emitted for each reference name (each missing from the other
process), and the single `byField["Priority"]` entry holds only process
B's entry (the last reference name processed) — not per-process entries
for both processes. -/
theorem c1_alignment_counterexample :
    aget (compareFields exC1).byWorkItemType "Bug" = some (fieldWitResultFor exC1 "Bug") ∧
    (fieldWitResultFor exC1 "Bug").differences.map
      (fun d => (d.fieldRefName, d.presentIn, d.missingFrom)) =
      [("r1", ["A"], ["B"]), ("r2", ["B"], ["A"])] ∧
    (aget (fieldWitResultFor exC1 "Bug").byField "Priority").map akeys = some ["B"] := by
  decide

theorem aset_nested_preserves {K0 PID0 : String} {m : JMap (JMap JObj)}
    (K1 pid1 : String) (f1 : JObj)
    (h : ∃ pf, aget m K0 = some pf ∧ (aget pf PID0).isSome) :
    ∃ pf, aget (aset m K1 (aset ((aget m K1).getD []) pid1 f1)) K0 = some pf ∧
      (aget pf PID0).isSome := by
  rcases h with ⟨pf, h1, h2⟩
  rw [aget_aset]
  by_cases hk : K1 = K0
  · subst hk
    rw [if_pos rfl]
    refine ⟨_, rfl, ?_⟩
    rw [h1]
    simp only [Option.getD_some]
    rw [aget_aset]
    by_cases hp : pid1 = PID0
    · simp [hp]
    · simp [hp, h2]
  · rw [if_neg hk]
    exact ⟨pf, h1, h2⟩

theorem aset_nested_establish (K pid : String) (f : JObj) (m : JMap (JMap JObj)) :
    ∃ pf, aget (aset m K (aset ((aget m K).getD []) pid f)) K = some pf ∧
      (aget pf pid).isSome := by
  rw [aget_aset, if_pos rfl]
  refine ⟨_, rfl, ?_⟩
  rw [aget_aset, if_pos rfl]
  simp

/-- A field carrying only an `id` property (no `referenceName`, no
`name`). -/
def fObjC8 : JObj := [("id", .atom (.str "f9"))]

/-- Process A has the malformed field; process B has none. -/
def exC8f : List ProcEntry :=
  [{ processId := "A", data := { fields := some [("Bug", [fObjC8])] } },
   { processId := "B", data := { fields := some [("Bug", [])] } }]

/-- A behavior binding carrying no `behavior.id` and no `id`. -/
def bObjC8 : JObj := [("isDefault", .atom (.bool true))]

/-- Process A has the identifier-less binding; process B has none. -/
def exC8b : List ProcEntry :=
  [{ processId := "A",
     data := { workItemTypeBehaviors := some [("Bug", [bObjC8])] } },
   { processId := "B", data := { workItemTypeBehaviors := some [("Bug", [])] } }]

/-- C8 (amended): a malformed field entry is still grouped — under
`field.referenceName || field.name` coerced to a key (the string
"undefined" when both are absent; there is no `id` fallback) — and never
dropped: every supplied field ends up in the field map under its derived
key with an entry for its process, and the pass (being a total function)
raises no error.  A work-item-type behavior binding, by contrast, is
grouped only when its derived identifier
`(behavior && behavior.id) || id` is truthy; a binding with no derivable
identifier is silently skipped (second conjunct, at the concrete input
`exC8b` whose process A supplies one identifier-less binding). -/
theorem c8_graceful_degradation :
    (∀ (ps : List ProcEntry) (witRef : String) (proc : ProcEntry) (field : JObj),
      proc ∈ ps → field ∈ ((aget ((proc.data.fields).getD []) witRef).getD []) →
      ∃ pf, aget (fieldMapFor ps witRef) (fkey field) = some pf ∧
        (aget pf proc.processId).isSome) ∧
    (behaviorRefMapFor exC8b "Bug" = [] ∧
      (compareWorkItemTypeBehaviors exC8b).byWorkItemType =
        [("Bug", { differences := [] })]) := by
  constructor
  · intro ps witRef proc field hproc hfield
    unfold fieldMapFor
    refine foldl_establish
      (fun m => ∃ pf, aget m (fkey field) = some pf ∧ (aget pf proc.processId).isSome)
      _ ?_ proc ?_ ps [] hproc
    · intro s proc2 hs
      refine foldl_preserve
        (fun m => ∃ pf, aget m (fkey field) = some pf ∧ (aget pf proc.processId).isSome)
        _ ?_ _ s hs
      intro m field2 hm
      exact aset_nested_preserves (fkey field2) proc2.processId field2 hm
    · intro s
      refine foldl_establish
        (fun m => ∃ pf, aget m (fkey field) = some pf ∧ (aget pf proc.processId).isSome)
        _ ?_ field ?_ _ s hfield
      · intro m field2 hm
        exact aset_nested_preserves (fkey field2) proc.processId field2 hm
      · intro m
        exact aset_nested_establish (fkey field) proc.processId field m
  · constructor
    · decide
    · decide

/-- Witness for C8: the malformed field of `exC8f` (only an `id`) is
grouped under the key "undefined" with an entry for process A. -/
theorem c8_graceful_degradation_witness :
    ∃ pf, aget (fieldMapFor exC8f "Bug") (fkey fObjC8) = some pf ∧
      (aget pf "A").isSome :=
  c8_graceful_degradation.1 exC8f "Bug"
    { processId := "A", data := { fields := some [("Bug", [fObjC8])] } } fObjC8
    (by decide) (by decide)

/-- Counterexample for C8: the comparators do not fall back to `id` for
fields — the malformed field is keyed "undefined", and no key "f9"
exists — and the binding comparator silently drops an identifier-less
binding: process A supplies one binding, yet the grouping map and the
emitted differences are empty. -/
theorem c8_counterexample :
    ((fieldWitResultFor exC8f "Bug").differences.map (fun d => d.fieldRefName) =
      ["undefined"] ∧
     aget (fieldMapFor exC8f "Bug") "f9" = none) ∧
    ((aget ((exC8b.headD ⟨"", "", {}⟩).data.workItemTypeBehaviors.getD []) "Bug").getD []
        ≠ [] ∧
     behaviorRefMapFor exC8b "Bug" = [] ∧
     (compareWorkItemTypeBehaviors exC8b).byWorkItemType =
       [("Bug", { differences := [] })]) := by
  decide

/-- Process A's field `r1` with display name "N". -/
def fObjC10a : JObj := [("referenceName", .atom (.str "r1")), ("name", .atom (.str "N"))]

/-- Process A's field `r2` with the same display name "N". -/
def fObjC10b : JObj := [("referenceName", .atom (.str "r2")), ("name", .atom (.str "N"))]

/-- One process whose work item type carries two fields with distinct
reference names but the same display name. -/
def exC10 : List ProcEntry :=
  [{ processId := "A", data := { fields := some [("Bug", [fObjC10a, fObjC10b])] } }]

/-- C10: when two fields of one work item type map distinct reference
names to the same display name, the per-type `all` list contains that
display name once per reference name (duplicated), and
`byField[displayName]` holds only the per-process entries of the last
such reference name processed (`r2`) — the earlier reference name's
entries are overwritten. -/
theorem c10_byfield_overwrite :
    aget (compareFields exC10).byWorkItemType "Bug" = some (fieldWitResultFor exC10 "Bug") ∧
    (fieldWitResultFor exC10 "Bug").all = [.atom (.str "N"), .atom (.str "N")] ∧
    (aget (fieldWitResultFor exC10 "Bug").byField "N").map
      (fun m => m.map (fun p => (p.1, p.2.referenceName))) =
      some [("A", JVal.atom (.str "r2"))] := by
  decide
